import Mathlib

/-!
# Verification of the Huffman example repository

Shallow embedding of `src/memory_efficent_huffman.cc` and `src/huffman_code.cc`.

* `Huffman.build_encoding` embeds the templated `huffman::build_encoding`
  function (tree construction from a histogram through a min priority queue,
  followed by the recursive walk that extracts the codeword table).
* `Huffman.MEH` embeds the pipeline of `memory_efficent_huffman.cc`'s `main`:
  the length-limiter loop, the dense-table materializer, the encode loop with
  escape side channel, and the greedy bit-by-bit decode loop.
* `Huffman.HC` embeds the serial and parallel (prefix-sum + scatter) encoders
  of `huffman_code.cc`'s `main`.

Machine integers (`int32_t` symbols, `size_t` counts and indices) are modelled
as `Int` and `Nat`; all arithmetic performed by the programs on reachable
inputs is far from any overflow boundary. `std::map` / `std::unordered_map`
values are modelled either as association lists (when the code iterates over
them) or as functions to `Option` (when the code only queries them).
-/

namespace Huffman

/-- Queue entries of `build_encoding`: `id` identifies interior nodes
(`0` for leaves), `value` is the leaf symbol, `count` the weight.
The C++ default member initializer gives interior entries a default `value`;
that field of an interior entry is never read. -/
structure QEntry (α : Type) where
  id : Nat
  value : α
  count : Nat
deriving DecidableEq

/-- The Huffman tree of `build_encoding`.  In the C++ code a node is a record
with an entry and two `shared_ptr` children; interior nodes (id ≥ 1) always
receive both children in the merge loop, leaves (id = 0) never receive any,
so the tree is represented with a leaf/interior alternative. -/
inductive HTree (α : Type) where
  | leaf (value : α) (count : Nat)
  | interior (id : Nat) (count : Nat) (left right : HTree α)
deriving DecidableEq

namespace HTree

/-- The `count` field of the root entry of a tree. -/
def count {α : Type} : HTree α → Nat
  | .leaf _ c => c
  | .interior _ c _ _ => c

/-- Values carried by the leaves, in left-to-right order. -/
def leafValues {α : Type} : HTree α → List α
  | .leaf v _ => [v]
  | .interior _ _ l r => leafValues l ++ leafValues r

/-- Number of leaf nodes. -/
def numLeaves {α : Type} : HTree α → Nat
  | .leaf _ _ => 1
  | .interior _ _ l r => numLeaves l + numLeaves r

/-- Number of interior nodes. -/
def numInteriors {α : Type} : HTree α → Nat
  | .leaf _ _ => 0
  | .interior _ _ l r => numInteriors l + numInteriors r + 1

theorem numLeaves_eq_numInteriors_succ {α : Type} (t : HTree α) :
    t.numLeaves = t.numInteriors + 1 := by
  induction t with
  | leaf v c => rfl
  | interior i c l r ihl ihr =>
      simp [numLeaves, numInteriors, ihl, ihr]; omega

theorem length_leafValues {α : Type} (t : HTree α) :
    t.leafValues.length = t.numLeaves := by
  induction t with
  | leaf v c => rfl
  | interior i c l r ihl ihr => simp [leafValues, numLeaves, ihl, ihr]

end HTree

/-- Model of popping `std::priority_queue` (min-queue on `count`): removes one
entry of minimal count.  The C++ tie-break among equal counts is unspecified
(heap order); the model deterministically takes the earliest minimal entry.
All theorems below depend only on the returned entry/rest being a permutation
split of the queue, never on which minimal entry is chosen. -/
def popMin {α : Type} : List (QEntry α) → Option (QEntry α × List (QEntry α))
  | [] => none
  | e :: rest =>
    match popMin rest with
    | none => some (e, rest)
    | some (m, rest') =>
      if e.count ≤ m.count then some (e, rest) else some (m, e :: rest')

theorem popMin_eq_none_iff {α : Type} (Q : List (QEntry α)) :
    popMin Q = none ↔ Q = [] := by
  cases Q with
  | nil => simp [popMin]
  | cons e rest =>
      simp only [popMin]
      cases h : popMin rest with
      | none => simp
      | some p =>
          obtain ⟨m, rest'⟩ := p
          by_cases hc : e.count ≤ m.count <;> simp [hc]

theorem popMin_perm {α : Type} {Q Q' : List (QEntry α)} {e : QEntry α}
    (h : popMin Q = some (e, Q')) : Q.Perm (e :: Q') := by
  induction Q generalizing e Q' with
  | nil => simp [popMin] at h
  | cons a rest ih =>
      simp only [popMin] at h
      cases hr : popMin rest with
      | none =>
          rw [hr] at h
          cases h
          exact List.Perm.refl _
      | some p =>
          obtain ⟨m, rest'⟩ := p
          rw [hr] at h
          by_cases hc : a.count ≤ m.count
          · simp only [hc, if_true] at h
            cases h
            exact List.Perm.refl _
          · simp only [hc, if_false] at h
            cases h
            exact (List.Perm.cons a (ih hr)).trans (List.Perm.swap e a rest')

theorem popMin_length {α : Type} {Q Q' : List (QEntry α)} {e : QEntry α}
    (h : popMin Q = some (e, Q')) : Q.length = Q'.length + 1 := by
  simpa using (popMin_perm h).length_eq

/-- `insert_or_retrieve_child`: adopt an already-built interior subtree from
the side table (erasing it — ownership transfer), otherwise synthesize a
fresh leaf from the entry's value and count.  The side table
(`std::unordered_map<id_t, std::shared_ptr<tree>>`) is modelled as a
function `Nat → Option (HTree α)`. -/
def childOf {α : Type} (interiors : Nat → Option (HTree α)) (e : QEntry α) :
    HTree α × (Nat → Option (HTree α)) :=
  match interiors e.id with
  | some t => (t, fun n => if n = e.id then none else interiors n)
  | none => (HTree.leaf e.value e.count, interiors)

/-- One execution of the merge-loop body of `build_encoding`: pop the two
least-count entries, attach their trees (or fresh leaves) as children of a new
interior node carrying the next id and the summed count, store the node in
the side table and push its entry.  The C++ creates the (empty) parent first
and then mutates it through a shared pointer; the net effect at the end of
the loop body is the state produced here. -/
def buildStep {α : Type} [Inhabited α]
    (Q : List (QEntry α)) (interiors : Nat → Option (HTree α)) (maxId : Nat) :
    List (QEntry α) × (Nat → Option (HTree α)) × Nat :=
  match popMin Q with
  | none => (Q, interiors, maxId)
  | some (e1, Q1) =>
    match popMin Q1 with
    | none => (Q, interiors, maxId)
    | some (e2, Q2) =>
      let p1 := childOf interiors e1
      let p2 := childOf p1.2 e2
      let newCount := p1.1.count + p2.1.count
      let node := HTree.interior maxId newCount p1.1 p2.1
      (Q2 ++ [⟨maxId, default, newCount⟩],
       fun n => if n = maxId then some node else p2.2 n,
       maxId + 1)

/-- The merge loop `while (Q.size() >= 2)`, written with an explicit fuel so
that it is structural; each iteration shrinks the queue by exactly one, so
fuel `Q.length` always suffices (see `buildLoopF_spec`). -/
def buildLoopF {α : Type} [Inhabited α] :
    Nat → List (QEntry α) → (Nat → Option (HTree α)) → Nat →
    List (QEntry α) × (Nat → Option (HTree α)) × Nat
  | 0, Q, interiors, maxId => (Q, interiors, maxId)
  | fuel + 1, Q, interiors, maxId =>
    if 2 ≤ Q.length then
      let s := buildStep Q interiors maxId
      buildLoopF fuel s.1 s.2.1 s.2.2
    else (Q, interiors, maxId)

/-- Insertion into a map modelled as an association list:
`encoding[k] = v` replaces the binding of `k` if present, else adds it. -/
def insertA {α β : Type} [DecidableEq α] (m : List (α × β)) (k : α) (v : β) :
    List (α × β) :=
  if (m.lookup k).isSome then
    m.map (fun p => if p.1 = k then (k, v) else p)
  else m ++ [(k, v)]

/-- The recursive walk of stage 3: descend left with bit `false`, right with
bit `true`, and at a leaf (id = 0) record the accumulated path as the
codeword (`encoding[node->entry.value] = path`). -/
def walkEnc {α : Type} [DecidableEq α] :
    HTree α → List Bool → List (α × List Bool) → List (α × List Bool)
  | .leaf v _, path, enc => insertA enc v path
  | .interior _ _ l r, path, enc =>
      walkEnc r (path ++ [true]) (walkEnc l (path ++ [false]) enc)

/-- Failures of `build_encoding`: the explicit
`std::invalid_argument("at least 2 symbols are required")` guard, and the
`std::out_of_range` that `interiors.at(max_id-1)` would raise were the root
absent (proved unreachable for well-formed input). -/
inductive BuildErr where
  | insufficientAlphabet
  | rootMissing
deriving DecidableEq

/-- The state reached by the merge loop of `build_encoding` when run on the
queue seeded from `histogram` (one id-0 entry per histogram entry). -/
def buildState {α : Type} [Inhabited α] (histogram : List (α × Nat)) :
    List (QEntry α) × (Nat → Option (HTree α)) × Nat :=
  let Q0 := histogram.map (fun p => (⟨0, p.1, p.2⟩ : QEntry α))
  buildLoopF Q0.length Q0 (fun _ => none) 1

/-- `huffman::build_encoding` (src/memory_efficent_huffman.cc, lines 24-130):
guard the alphabet size, seed the min-queue with one id-0 entry per histogram
entry (`std::map` iteration order; only the multiset of entries matters to
the results proved below), run the merge loop, fetch the root from the side
table and extract the code table by walking. -/
def build_encoding {α : Type} [DecidableEq α] [Inhabited α]
    (histogram : List (α × Nat)) : Except BuildErr (List (α × List Bool)) :=
  if histogram.length ≤ 1 then .error .insufficientAlphabet
  else
    match (buildState histogram).2.1 ((buildState histogram).2.2 - 1) with
    | none => .error .rootMissing
    | some root => .ok (walkEnc root [] [])

/-- Codewords as produced by the walk, without the map-insertion step:
concatenation of leaf paths in visit order.  `walkEnc` coincides with
appending this list whenever the leaf values are distinct
(`walkEnc_eq_append`). -/
def pathsOf {α : Type} : HTree α → List Bool → List (α × List Bool)
  | .leaf v _, path => [(v, path)]
  | .interior _ _ l r, path =>
      pathsOf l (path ++ [false]) ++ pathsOf r (path ++ [true])

/-! ### Invariants of the merge loop -/

/-- The tree denoted by a queue entry: leaves denote themselves, interior
entries denote the subtree held by the side table (the `getD` default is
never used in good states). -/
def treeOf {α : Type} (I : Nat → Option (HTree α)) (e : QEntry α) : HTree α :=
  if e.id = 0 then HTree.leaf e.value e.count
  else (I e.id).getD (HTree.leaf e.value e.count)

/-- Nonzero (interior) ids present in the queue. -/
def nzIds {α : Type} (Q : List (QEntry α)) : List Nat :=
  (Q.map QEntry.id).filter (fun n => n ≠ 0)

/-- The invariant coupling the queue, the side table of unattached interior
subtrees and the id counter, at every loop boundary: the side table holds
exactly the nonzero ids present in the queue, those ids are distinct, and
all ids are below the counter. -/
structure GoodState {α : Type} (Q : List (QEntry α))
    (I : Nat → Option (HTree α)) (m : Nat) : Prop where
  mem_iff : ∀ n, (I n).isSome ↔ (n ≠ 0 ∧ n ∈ Q.map QEntry.id)
  nodup : (nzIds Q).Nodup
  lt : ∀ e ∈ Q, e.id < m
  pos : 1 ≤ m

/-- Multiset of leaf values of a tree. -/
def leafMS {α : Type} (t : HTree α) : Multiset α := (t.leafValues : Multiset α)

/-- Multiset of all leaf values of the forest denoted by the queue. -/
def forestMS {α : Type} (Q : List (QEntry α)) (I : Nat → Option (HTree α)) :
    Multiset α :=
  (Q.map (fun e => leafMS (treeOf I e))).sum

theorem forestMS_perm {α : Type} {Q Q' : List (QEntry α)}
    (I : Nat → Option (HTree α)) (h : Q.Perm Q') :
    forestMS Q I = forestMS Q' I :=
  List.Perm.sum_eq (h.map _)

theorem nzIds_perm {α : Type} {Q Q' : List (QEntry α)} (h : Q.Perm Q') :
    (nzIds Q).Perm (nzIds Q') :=
  (h.map _).filter _

theorem nzIds_cons {α : Type} (e : QEntry α) (Q : List (QEntry α)) :
    nzIds (e :: Q) = if e.id = 0 then nzIds Q else e.id :: nzIds Q := by
  by_cases h : e.id = 0 <;> simp [nzIds, List.filter_cons, h]

theorem nzIds_append {α : Type} (Q Q' : List (QEntry α)) :
    nzIds (Q ++ Q') = nzIds Q ++ nzIds Q' := by
  simp [nzIds]

theorem mem_nzIds_of_mem {α : Type} {Q : List (QEntry α)} {e : QEntry α}
    (he : e ∈ Q) (h0 : e.id ≠ 0) : e.id ∈ nzIds Q := by
  simp only [nzIds, List.mem_filter, List.mem_map]
  exact ⟨⟨e, he, rfl⟩, by simpa using h0⟩

theorem childOf_eq {α : Type} {I : Nat → Option (HTree α)} {e : QEntry α}
    (h0 : I 0 = none) (hs : e.id ≠ 0 → (I e.id).isSome) :
    childOf I e = (treeOf I e, fun n => if n = e.id then none else I n) := by
  by_cases hid : e.id = 0
  · rw [childOf, hid, h0]
    refine Prod.ext ?_ ?_
    · simp [treeOf, hid]
    · funext n
      by_cases hn : n = 0 <;> simp [hn, h0]
  · obtain ⟨t, ht⟩ := Option.isSome_iff_exists.mp (hs hid)
    rw [childOf, ht]
    refine Prod.ext ?_ ?_
    · simp [treeOf, hid, ht]
    · rfl

/-- One merge step preserves the invariant, shortens the queue by one,
advances the id counter by one, preserves the forest's leaf multiset, and
pushes an entry carrying the fresh id. -/
theorem buildStep_spec {α : Type} [Inhabited α] {Q : List (QEntry α)}
    {I : Nat → Option (HTree α)} {m : Nat}
    (gs : GoodState Q I m) (h2 : 2 ≤ Q.length) :
    GoodState (buildStep Q I m).1 (buildStep Q I m).2.1 (buildStep Q I m).2.2 ∧
    (buildStep Q I m).1.length + 1 = Q.length ∧
    (buildStep Q I m).2.2 = m + 1 ∧
    forestMS (buildStep Q I m).1 (buildStep Q I m).2.1 = forestMS Q I ∧
    ∃ Q2 c, (buildStep Q I m).1 = Q2 ++ [⟨m, default, c⟩] := by
  -- the two pops succeed and give a permutation split of the queue
  obtain ⟨e1, Q1, hp1⟩ : ∃ e1 Q1, popMin Q = some (e1, Q1) := by
    cases hp : popMin Q with
    | none => rw [popMin_eq_none_iff] at hp; subst hp; simp at h2
    | some p => obtain ⟨a, b⟩ := p; exact ⟨a, b, rfl⟩
  have hlen1 : Q.length = Q1.length + 1 := popMin_length hp1
  obtain ⟨e2, Q2, hp2⟩ : ∃ e2 Q2, popMin Q1 = some (e2, Q2) := by
    cases hp : popMin Q1 with
    | none => rw [popMin_eq_none_iff] at hp; subst hp; simp at hlen1; omega
    | some p => obtain ⟨a, b⟩ := p; exact ⟨a, b, rfl⟩
  have hlen2 : Q1.length = Q2.length + 1 := popMin_length hp2
  have hperm : Q.Perm (e1 :: e2 :: Q2) :=
    (popMin_perm hp1).trans ((popMin_perm hp2).cons e1)
  have hI0 : I 0 = none := by
    have := gs.mem_iff 0
    simp at this
    exact Option.not_isSome_iff_eq_none.mp (by simp [this])
  have he1Q : e1 ∈ Q := hperm.mem_iff.mpr (by simp)
  have he2Q : e2 ∈ Q := hperm.mem_iff.mpr (by simp)
  have hsome : ∀ e ∈ Q, e.id ≠ 0 → (I e.id).isSome := by
    intro e he h0
    exact (gs.mem_iff e.id).mpr ⟨h0, List.mem_map.mpr ⟨e, he, rfl⟩⟩
  -- distinctness facts from the nodup invariant transported along the perm
  have hnd : (nzIds (e1 :: e2 :: Q2)).Nodup := ((nzIds_perm hperm).nodup_iff).mp gs.nodup
  have hndtail : (nzIds (e2 :: Q2)).Nodup := by
    by_cases h1 : e1.id = 0
    · rwa [nzIds_cons, if_pos h1] at hnd
    · rw [nzIds_cons, if_neg h1, List.nodup_cons] at hnd
      exact hnd.2
  have hndQ2 : (nzIds Q2).Nodup := by
    by_cases h2' : e2.id = 0
    · rwa [nzIds_cons, if_pos h2'] at hndtail
    · rw [nzIds_cons, if_neg h2', List.nodup_cons] at hndtail
      exact hndtail.2
  have hne12 : e1.id ≠ 0 → e2.id ≠ 0 → e1.id ≠ e2.id := by
    intro h1 h2'
    rw [nzIds_cons, if_neg h1, List.nodup_cons, nzIds_cons, if_neg h2'] at hnd
    intro he
    exact hnd.1 (he ▸ List.mem_cons_self _ _)
  have hnotin1 : e1.id ≠ 0 → e1.id ∉ nzIds Q2 := by
    intro h1 hmem
    rw [nzIds_cons, if_neg h1, List.nodup_cons] at hnd
    apply hnd.1
    by_cases h2' : e2.id = 0
    · rwa [nzIds_cons, if_pos h2']
    · rw [nzIds_cons, if_neg h2']
      exact List.mem_cons_of_mem _ hmem
  have hnotin2 : e2.id ≠ 0 → e2.id ∉ nzIds Q2 := by
    intro h2' hmem
    rw [nzIds_cons, if_neg h2', List.nodup_cons] at hndtail
    exact hndtail.1 hmem
  -- unfold the step
  have hc1 := childOf_eq (e := e1) hI0 (hsome e1 he1Q)
  set I1 : Nat → Option (HTree α) := fun n => if n = e1.id then none else I n with hI1
  have hI10 : I1 0 = none := by
    simp only [hI1]
    by_cases h : (0 : Nat) = e1.id <;> simp [h, hI0]
  have hs2 : e2.id ≠ 0 → (I1 e2.id).isSome := by
    intro h0
    simp only [hI1]
    by_cases hq : e2.id = e1.id
    · by_cases h1 : e1.id = 0
      · exact absurd (hq.trans h1) h0
      · exact absurd hq (hne12 h1 h0 ∘ Eq.symm)
    · rw [if_neg hq]; exact hsome e2 he2Q h0
  have hc2 := childOf_eq (e := e2) hI10 hs2
  have ht2 : treeOf I1 e2 = treeOf I e2 := by
    by_cases h0 : e2.id = 0
    · simp [treeOf, h0]
    · have hq : e2.id ≠ e1.id := by
        by_cases h1 : e1.id = 0
        · intro h; exact h0 (h.trans h1)
        · exact fun h => (hne12 h1 h0) h.symm
      simp [treeOf, h0, hI1, hq]
  have hstep : buildStep Q I m =
      (Q2 ++ [⟨m, default, (treeOf I e1).count + (treeOf I e2).count⟩],
       fun n => if n = m then
         some (HTree.interior m ((treeOf I e1).count + (treeOf I e2).count)
           (treeOf I e1) (treeOf I e2))
       else if n = e2.id then none else I1 n,
       m + 1) := by
    simp only [buildStep, hp1, hp2, hc1, hc2, ht2]
  have hstep1 : (buildStep Q I m).1 =
      Q2 ++ [⟨m, default, (treeOf I e1).count + (treeOf I e2).count⟩] := by
    rw [hstep]
  have hstep2 : (buildStep Q I m).2.1 = fun n => if n = m then
      some (HTree.interior m ((treeOf I e1).count + (treeOf I e2).count)
        (treeOf I e1) (treeOf I e2))
      else if n = e2.id then none else I1 n := by
    rw [hstep]
  have hstep3 : (buildStep Q I m).2.2 = m + 1 := by rw [hstep]
  -- facts about ids in Q2
  have hltQ2 : ∀ e ∈ Q2, e.id < m := fun e he =>
    gs.lt e (hperm.mem_iff.mpr (by simp [he]))
  have hm0 : m ≠ 0 := by have := gs.pos; omega
  have hI2eq : ∀ n, n ≠ e1.id → n ≠ e2.id →
      (if n = e2.id then none else I1 n) = I n := by
    intro n h1 h2'
    simp [h1, h2', hI1]
  -- the new side table looked up away from the three touched ids
  have htQ2 : ∀ e ∈ Q2, treeOf (fun n => if n = m then
      some (HTree.interior m ((treeOf I e1).count + (treeOf I e2).count)
        (treeOf I e1) (treeOf I e2))
      else if n = e2.id then none else I1 n) e = treeOf I e := by
    intro e he
    by_cases h0 : e.id = 0
    · simp [treeOf, h0]
    · have hem : e.id ≠ m := by have := hltQ2 e he; omega
      have he1 : e.id ≠ e1.id := by
        intro h
        have h1 : e1.id ≠ 0 := h ▸ h0
        exact hnotin1 h1 (h ▸ mem_nzIds_of_mem he h0)
      have he2 : e.id ≠ e2.id := by
        intro h
        have h2' : e2.id ≠ 0 := h ▸ h0
        exact hnotin2 h2' (h ▸ mem_nzIds_of_mem he h0)
      simp only [treeOf, h0, if_neg h0, if_neg hem]
      rw [hI2eq e.id he1 he2]
  rw [hstep1, hstep2, hstep3]
  refine ⟨?_, ?_, rfl, ?_, Q2, _, rfl⟩
  · -- GoodState of the new state
    refine ⟨?_, ?_, ?_, by omega⟩
    · intro n
      by_cases hn : n = m
      · subst hn
        simp [hm0]
      · simp only [if_neg hn]
        by_cases hn1 : n = e1.id
        · subst hn1
          constructor
          · intro hsm
            by_cases h1 : e1.id = e2.id
            · rw [h1] at hsm; simp at hsm
            · rw [if_neg h1] at hsm
              simp [hI1] at hsm
          · rintro ⟨h0, hmem⟩
            simp only [List.map_append, List.mem_append, List.map_cons,
              List.map_nil, List.mem_cons, List.not_mem_nil, or_false] at hmem
            rcases hmem with hmem | hmem
            · obtain ⟨e, he, heq⟩ := List.mem_map.mp hmem
              exact absurd (heq ▸ mem_nzIds_of_mem he (heq.symm ▸ h0))
                (hnotin1 h0)
            · exact absurd hmem hn
        · by_cases hn2 : n = e2.id
          · subst hn2
            simp only [if_pos rfl]
            constructor
            · intro hsm; simp at hsm
            · rintro ⟨h0, hmem⟩
              simp only [List.map_append, List.mem_append, List.map_cons,
                List.map_nil, List.mem_cons, List.not_mem_nil, or_false] at hmem
              rcases hmem with hmem | hmem
              · obtain ⟨e, he, heq⟩ := List.mem_map.mp hmem
                exact absurd (heq ▸ mem_nzIds_of_mem he (heq.symm ▸ h0))
                  (hnotin2 h0)
              · exact absurd hmem hn
          · rw [hI2eq n hn1 hn2, gs.mem_iff n]
            have hiff : n ∈ Q.map QEntry.id ↔ n ∈ (Q2 ++ [(⟨m, default,
                (treeOf I e1).count + (treeOf I e2).count⟩ : QEntry α)]).map QEntry.id := by
              rw [List.Perm.mem_iff (hperm.map QEntry.id)]
              simp only [List.map_cons, List.mem_cons, List.map_append,
                List.mem_append, List.map_cons, List.map_nil, List.mem_cons,
                List.not_mem_nil, or_false]
              constructor
              · rintro (h | h | h)
                · exact absurd h hn1
                · exact absurd h hn2
                · exact Or.inl h
              · rintro (h | h)
                · exact Or.inr (Or.inr h)
                · exact absurd h hn
            rw [and_congr_right_iff]
            intro _
            exact hiff
    · rw [nzIds_append, nzIds_cons]
      have hid : (⟨m, default, (treeOf I e1).count + (treeOf I e2).count⟩
          : QEntry α).id = m := rfl
      rw [hid, if_neg hm0]
      have hnil : nzIds ([] : List (QEntry α)) = [] := rfl
      rw [hnil]
      refine List.Nodup.append hndQ2 (by simp) ?_
      intro n hn hn'
      have hnm : n = m := by simpa using hn'
      subst hnm
      simp only [nzIds] at hn
      obtain ⟨hmem, _⟩ := List.mem_filter.mp hn
      obtain ⟨e, he, heq⟩ := List.mem_map.mp hmem
      have := hltQ2 e he
      omega
    · intro e he
      rcases List.mem_append.mp he with h | h
      · have := hltQ2 e h; omega
      · simp only [List.mem_cons, List.not_mem_nil, or_false] at h
        subst h
        show m < m + 1
        omega
  · have : Q.length = Q2.length + 2 := by omega
    simp [this]
  · -- forest multiset preserved
    rw [forestMS_perm I hperm]
    have hroot : treeOf (fun n => if n = m then
        some (HTree.interior m ((treeOf I e1).count + (treeOf I e2).count)
          (treeOf I e1) (treeOf I e2))
        else if n = e2.id then none else I1 n)
        (⟨m, default, (treeOf I e1).count + (treeOf I e2).count⟩ : QEntry α) =
        HTree.interior m ((treeOf I e1).count + (treeOf I e2).count)
          (treeOf I e1) (treeOf I e2) := by
      simp [treeOf, hm0]
    have hmap : List.map (fun e => leafMS (treeOf (fun n => if n = m then
        some (HTree.interior m ((treeOf I e1).count + (treeOf I e2).count)
          (treeOf I e1) (treeOf I e2))
        else if n = e2.id then none else I1 n) e)) Q2 =
        List.map (fun e => leafMS (treeOf I e)) Q2 :=
      List.map_congr_left (fun e he => by rw [htQ2 e he])
    simp only [forestMS, List.map_append, List.sum_append, List.map_cons,
      List.map_nil, List.sum_cons, List.sum_nil]
    rw [hmap, hroot]
    have hadd : leafMS (HTree.interior m
        ((treeOf I e1).count + (treeOf I e2).count)
        (treeOf I e1) (treeOf I e2)) =
        leafMS (treeOf I e1) + leafMS (treeOf I e2) := by
      simp only [leafMS, HTree.leafValues]
      rfl
    rw [hadd]
    abel

theorem buildLoopF_fix {α : Type} [Inhabited α] (fuel : Nat)
    (Q : List (QEntry α)) (I : Nat → Option (HTree α)) (m : Nat)
    (h : Q.length ≤ 1) : buildLoopF fuel Q I m = (Q, I, m) := by
  cases fuel with
  | zero => rfl
  | succ f =>
      simp only [buildLoopF]
      rw [if_neg (by omega)]

/-- Full loop specification: starting from a good nonempty state with enough
fuel, the loop ends with a single queue entry, having advanced the id counter
once per merge (`|Q| - 1` merges) and preserved the forest's leaf multiset;
when at least one merge ran, the surviving entry carries the last id. -/
theorem buildLoopF_spec {α : Type} [Inhabited α] :
    ∀ (fuel : Nat) (Q : List (QEntry α)) (I : Nat → Option (HTree α)) (m : Nat),
    GoodState Q I m → 1 ≤ Q.length → Q.length ≤ fuel + 1 →
    GoodState (buildLoopF fuel Q I m).1 (buildLoopF fuel Q I m).2.1
      (buildLoopF fuel Q I m).2.2 ∧
    (buildLoopF fuel Q I m).1.length = 1 ∧
    (buildLoopF fuel Q I m).2.2 + 1 = m + Q.length ∧
    forestMS (buildLoopF fuel Q I m).1 (buildLoopF fuel Q I m).2.1 =
      forestMS Q I ∧
    (2 ≤ Q.length → ∃ c, (buildLoopF fuel Q I m).1 =
      [⟨(buildLoopF fuel Q I m).2.2 - 1, default, c⟩]) := by
  intro fuel
  induction fuel with
  | zero =>
      intro Q I m gs h1 hle
      have hQ1 : Q.length = 1 := by omega
      simp only [buildLoopF]
      refine ⟨gs, hQ1, by omega, by trivial, ?_⟩
      intro h2
      omega
  | succ f ih =>
      intro Q I m gs h1 hle
      by_cases h2 : 2 ≤ Q.length
      · obtain ⟨gs', hlen', hm', hforest', Q2, c, hQ'⟩ := buildStep_spec gs h2
        have hrw : buildLoopF (f + 1) Q I m =
            buildLoopF f (buildStep Q I m).1 (buildStep Q I m).2.1
              (buildStep Q I m).2.2 := by
          simp only [buildLoopF]
          rw [if_pos h2]
        by_cases h2' : 2 ≤ (buildStep Q I m).1.length
        · have ih' := ih (buildStep Q I m).1 (buildStep Q I m).2.1
            (buildStep Q I m).2.2 gs' (by omega) (by omega)
          rw [hrw]
          refine ⟨ih'.1, ih'.2.1, ?_, ?_, ?_⟩
          · have h3 := ih'.2.2.1
            omega
          · rw [ih'.2.2.2.1, hforest']
          · intro _
            exact ih'.2.2.2.2 h2'
        · have hs1 : (buildStep Q I m).1.length = 1 := by omega
          have hQ2nil : Q2 = [] := by
            have hl := congrArg List.length hQ'
            simp at hl
            exact List.eq_nil_of_length_eq_zero (by omega)
          subst hQ2nil
          rw [hrw, buildLoopF_fix f _ _ _ (by omega)]
          dsimp only
          refine ⟨gs', hs1, by omega, hforest', ?_⟩
          intro _
          refine ⟨c, ?_⟩
          rw [hQ', hm']
          simp
      · have hQ1 : Q.length = 1 := by omega
        rw [buildLoopF_fix (f + 1) Q I m (by omega)]
        dsimp only
        refine ⟨gs, hQ1, by omega, rfl, ?_⟩
        intro h2'
        omega

theorem goodState_init {α : Type} (hist : List (α × Nat)) :
    GoodState (hist.map (fun p => (⟨0, p.1, p.2⟩ : QEntry α)))
      (fun _ => none) 1 := by
  refine ⟨?_, ?_, ?_, le_refl 1⟩
  · intro n
    constructor
    · intro h
      simp at h
    · rintro ⟨h0, hmem⟩
      simp only [List.map_map, List.mem_map, Function.comp] at hmem
      obtain ⟨p, hp, hid⟩ := hmem
      exact absurd hid.symm h0
  · have : nzIds (hist.map (fun p => (⟨0, p.1, p.2⟩ : QEntry α))) = [] := by
      rw [nzIds, List.filter_eq_nil_iff]
      intro n hn
      simp only [List.map_map, List.mem_map, Function.comp] at hn
      obtain ⟨p, hp, hid⟩ := hn
      simp [← hid]
    rw [this]
    exact List.nodup_nil
  · intro e he
    simp only [List.mem_map] at he
    obtain ⟨p, hp, hpe⟩ := he
    rw [← hpe]
    exact Nat.lt_succ_self 0

theorem forestMS_init {α : Type} (hist : List (α × Nat)) :
    forestMS (hist.map (fun p => (⟨0, p.1, p.2⟩ : QEntry α))) (fun _ => none) =
    ((hist.map Prod.fst : List α) : Multiset α) := by
  induction hist with
  | nil => rfl
  | cons p t ih =>
      simp only [forestMS, List.map_cons, List.sum_cons] at ih ⊢
      rw [ih]
      have h1 : treeOf (fun _ => none) (⟨0, p.1, p.2⟩ : QEntry α) =
          HTree.leaf p.1 p.2 := rfl
      rw [h1]
      have h2 : leafMS (HTree.leaf p.1 p.2) = ({p.1} : Multiset α) := rfl
      rw [h2, Multiset.singleton_add, Multiset.cons_coe]

/-- For a histogram with at least two entries, the merge loop ends with the
root present in the side table under key `maxId - 1`, having created exactly
`n - 1` interior ids (final counter = `n`), and the root's leaves carry
exactly the histogram's keys. -/
theorem buildState_root {α : Type} [Inhabited α] (hist : List (α × Nat))
    (h2 : 2 ≤ hist.length) :
    ∃ root : HTree α,
      (buildState hist).2.1 ((buildState hist).2.2 - 1) = some root ∧
      (buildState hist).2.2 = hist.length ∧
      leafMS root = ((hist.map Prod.fst : List α) : Multiset α) := by
  have hlen : (hist.map (fun p => (⟨0, p.1, p.2⟩ : QEntry α))).length =
      hist.length := by simp
  have hbs : buildState hist =
      buildLoopF (hist.map (fun p => (⟨0, p.1, p.2⟩ : QEntry α))).length
        (hist.map (fun p => (⟨0, p.1, p.2⟩ : QEntry α))) (fun _ => none) 1 :=
    rfl
  obtain ⟨gs', hlen1, hm, hforest, hlast⟩ :=
    buildLoopF_spec (hist.map (fun p => (⟨0, p.1, p.2⟩ : QEntry α))).length
      (hist.map (fun p => (⟨0, p.1, p.2⟩ : QEntry α))) (fun _ => none) 1
      (goodState_init hist) (by omega) (by omega)
  obtain ⟨c, hQ⟩ := hlast (by omega)
  rw [← hbs] at gs' hlen1 hm hforest hQ
  rw [hlen] at hm
  have hm' : (buildState hist).2.2 = hist.length := by omega
  have hid0 : (buildState hist).2.2 - 1 ≠ 0 := by omega
  have hsome : ((buildState hist).2.1 ((buildState hist).2.2 - 1)).isSome := by
    rw [gs'.mem_iff]
    refine ⟨hid0, ?_⟩
    rw [hQ]
    simp
  obtain ⟨root, hroot⟩ := Option.isSome_iff_exists.mp hsome
  refine ⟨root, hroot, hm', ?_⟩
  have htree : treeOf (buildState hist).2.1
      (⟨(buildState hist).2.2 - 1, default, c⟩ : QEntry α) = root := by
    simp only [treeOf, hid0, if_neg hid0]
    rw [hroot]
    rfl
  have hfor2 : forestMS (buildState hist).1 (buildState hist).2.1 =
      leafMS root := by
    rw [hQ]
    simp only [forestMS, List.map_cons, List.map_nil, List.sum_cons,
      List.sum_nil, htree]
    simp
  rw [← hfor2, hforest, forestMS_init]

/-! ### The walk: codeword extraction -/

theorem pathsOf_keys {α : Type} (t : HTree α) (p : List Bool) :
    (pathsOf t p).map Prod.fst = t.leafValues := by
  induction t generalizing p with
  | leaf v c => rfl
  | interior i c l r ihl ihr => simp [pathsOf, HTree.leafValues, ihl, ihr]

theorem lookup_eq_none_of_not_mem_keys {α β : Type} [BEq α] [LawfulBEq α]
    {m : List (α × β)} {k : α} (h : k ∉ m.map Prod.fst) :
    m.lookup k = none := by
  induction m with
  | nil => rfl
  | cons p t ih =>
      simp only [List.map_cons, List.mem_cons] at h
      push_neg at h
      obtain ⟨p1, p2⟩ := p
      simp only [List.lookup]
      have : (k == p1) = false := by
        simp only [beq_eq_false_iff_ne, ne_eq]
        exact h.1
      rw [this]
      exact ih h.2

/-- When all leaf values are distinct and fresh relative to the accumulated
encoding, the map-insertion walk is plain concatenation of the leaf paths. -/
theorem walkEnc_eq_append {α : Type} [DecidableEq α] (t : HTree α) :
    ∀ (p : List Bool) (enc : List (α × List Bool)),
    t.leafValues.Nodup →
    (∀ k ∈ enc.map Prod.fst, k ∉ t.leafValues) →
    walkEnc t p enc = enc ++ pathsOf t p := by
  induction t with
  | leaf v c =>
      intro p enc _ hdisj
      have hv : v ∉ enc.map Prod.fst := fun h =>
        hdisj v h (by simp [HTree.leafValues])
      simp only [walkEnc, pathsOf, insertA,
        lookup_eq_none_of_not_mem_keys hv, Option.isSome_none,
        Bool.false_eq_true, if_false]
  | interior i c l r ihl ihr =>
      intro p enc hnd hdisj
      simp only [HTree.leafValues] at hnd hdisj
      rw [List.nodup_append] at hnd
      obtain ⟨hndl, hndr, hdisjlr⟩ := hnd
      rw [walkEnc, ihl (p ++ [false]) enc hndl
        (fun k hk hmem => hdisj k hk (List.mem_append.mpr (Or.inl hmem)))]
      rw [ihr (p ++ [true]) (enc ++ pathsOf l (p ++ [false])) hndr ?_]
      · rw [pathsOf, List.append_assoc]
      · intro k hk hmem
        rw [List.map_append] at hk
        rcases List.mem_append.mp hk with hk' | hk'
        · exact hdisj k hk' (List.mem_append.mpr (Or.inr hmem))
        · rw [pathsOf_keys] at hk'
          exact hdisjlr hk' hmem

/-! ### Prefix-freeness of the extracted codewords -/

theorem isPrefixOf_iff_exists {l₁ l₂ : List Bool} :
    l₁.isPrefixOf l₂ = true ↔ ∃ t, l₁ ++ t = l₂ := by
  induction l₁ generalizing l₂ with
  | nil => simp [List.isPrefixOf]
  | cons a as ih =>
      cases l₂ with
      | nil => simp [List.isPrefixOf]
      | cons b bs =>
          simp only [List.isPrefixOf, Bool.and_eq_true, beq_iff_eq, ih,
            List.cons_append, List.cons.injEq]
          constructor
          · rintro ⟨rfl, t, rfl⟩
            exact ⟨t, rfl, rfl⟩
          · rintro ⟨t, rfl, rfl⟩
            exact ⟨rfl, t, rfl⟩

/-- Every codeword recorded under a node extends that node's path. -/
theorem pathsOf_extend {α : Type} (t : HTree α) :
    ∀ (p : List Bool), ∀ e ∈ pathsOf t p, ∃ u, e.2 = p ++ u := by
  induction t with
  | leaf v c =>
      intro p e he
      simp only [pathsOf, List.mem_singleton] at he
      subst he
      exact ⟨[], by simp⟩
  | interior i c l r ihl ihr =>
      intro p e he
      rcases List.mem_append.mp he with h | h
      · obtain ⟨u, hu⟩ := ihl (p ++ [false]) e h
        exact ⟨[false] ++ u, by rw [hu, List.append_assoc]⟩
      · obtain ⟨u, hu⟩ := ihr (p ++ [true]) e h
        exact ⟨[true] ++ u, by rw [hu, List.append_assoc]⟩

/-- Two codewords that diverge right after a common stem are not prefixes of
one another. -/
theorem not_pre_of_diverge {p : List Bool} {x y : Bool} (hxy : x ≠ y)
    {c1 c2 u1 u2 : List Bool} (h1 : c1 = (p ++ [x]) ++ u1)
    (h2 : c2 = (p ++ [y]) ++ u2) :
    c1.isPrefixOf c2 = false := by
  cases hpre : c1.isPrefixOf c2 with
  | false => rfl
  | true =>
      exfalso
      obtain ⟨u, hu⟩ := isPrefixOf_iff_exists.mp hpre
      have hc2 : c2 = (p ++ [x]) ++ (u1 ++ u) := by
        rw [← hu, h1, List.append_assoc]
      have t1 : c2.take (p ++ [x]).length = p ++ [x] := by
        rw [hc2]
        exact List.take_left _ _
      have t2 : c2.take (p ++ [y]).length = p ++ [y] := by
        rw [h2]
        exact List.take_left _ _
      have hlen : (p ++ [x]).length = (p ++ [y]).length := by simp
      have : p ++ [x] = p ++ [y] := by rw [← t1, ← t2, hlen]
      have := List.append_cancel_left this
      simp at this
      exact hxy this

/-- The codewords of distinct leaves of one tree are mutually non-prefix
(in particular mutually distinct). -/
theorem pathsOf_pairwise {α : Type} (t : HTree α) :
    ∀ (p : List Bool), (pathsOf t p).Pairwise
      (fun a b => a.2.isPrefixOf b.2 = false ∧ b.2.isPrefixOf a.2 = false) := by
  induction t with
  | leaf v c => intro p; simp [pathsOf]
  | interior i c l r ihl ihr =>
      intro p
      rw [pathsOf, List.pairwise_append]
      refine ⟨ihl _, ihr _, ?_⟩
      intro a ha b hb
      obtain ⟨u1, hu1⟩ := pathsOf_extend l (p ++ [false]) a ha
      obtain ⟨u2, hu2⟩ := pathsOf_extend r (p ++ [true]) b hb
      constructor
      · exact not_pre_of_diverge (by simp) hu1 hu2
      · exact not_pre_of_diverge (by simp) hu2 hu1

/-- Success characterization of `build_encoding` on histograms with distinct
keys and at least two entries: the table is exactly the leaf-path list of the
built tree, whose leaves enumerate the histogram keys. -/
theorem build_encoding_ok_spec {α : Type} [DecidableEq α] [Inhabited α]
    (hist : List (α × Nat)) (h2 : 2 ≤ hist.length)
    (hnd : (hist.map Prod.fst).Nodup) :
    ∃ root : HTree α,
      (buildState hist).2.2 = hist.length ∧
      build_encoding hist = .ok (pathsOf root []) ∧
      root.leafValues.Perm (hist.map Prod.fst) ∧
      ((pathsOf root []).map Prod.fst).Perm (hist.map Prod.fst) := by
  obtain ⟨root, hroot, hm, hleaf⟩ := buildState_root hist h2
  have hperm : root.leafValues.Perm (hist.map Prod.fst) := by
    rw [leafMS] at hleaf
    exact Multiset.coe_eq_coe.mp hleaf
  have hndl : root.leafValues.Nodup := hperm.nodup_iff.mpr hnd
  refine ⟨root, hm, ?_, hperm, ?_⟩
  · have hok : build_encoding hist = .ok (walkEnc root [] []) := by
      rw [build_encoding, if_neg (by omega), hroot]
    rw [hok, walkEnc_eq_append root [] [] hndl (by simp)]
    rfl
  · rw [pathsOf_keys]
    exact hperm

/-- C3: for every histogram with n ≥ 2 entries (distinct keys), building a
code creates exactly n−1 interior nodes — the merge loop body runs n−1 times,
leaving the id counter (which starts at 1 and is bumped once per created
interior node) at n — and the tree has n leaves and n−1 interior nodes; the
resulting code table is prefix-free: no codeword is a (proper) prefix of any
other codeword, distinct codewords being moreover pairwise distinct. -/
theorem claim3_counts_and_prefix_free {α : Type} [DecidableEq α] [Inhabited α]
    (hist : List (α × Nat)) (h2 : 2 ≤ hist.length)
    (hnd : (hist.map Prod.fst).Nodup) :
    ∃ tbl, ∃ root : HTree α,
      build_encoding hist = .ok tbl ∧
      (buildState hist).2.2 = hist.length ∧
      root.numLeaves = hist.length ∧
      root.numInteriors + 1 = hist.length ∧
      tbl = pathsOf root [] ∧
      tbl.Pairwise
        (fun a b => a.2.isPrefixOf b.2 = false ∧ b.2.isPrefixOf a.2 = false) := by
  obtain ⟨root, hm, hok, hperm, hkeys⟩ := build_encoding_ok_spec hist h2 hnd
  have hlen : root.numLeaves = hist.length := by
    rw [← HTree.length_leafValues, hperm.length_eq, List.length_map]
  refine ⟨pathsOf root [], root, hok, hm, hlen, ?_, rfl, pathsOf_pairwise root []⟩
  have := HTree.numLeaves_eq_numInteriors_succ root
  omega

/-- Witness for C3 at the histogram {0↦1, 1↦1, 2↦2}. -/
theorem claim3_witness :
    (2 ≤ ([((0 : Int), 1), (1, 1), (2, 2)] : List (Int × Nat)).length ∧
      (([((0 : Int), 1), (1, 1), (2, 2)] : List (Int × Nat)).map
        Prod.fst).Nodup) ∧
    ∃ tbl, ∃ root : HTree Int,
      build_encoding ([((0 : Int), 1), (1, 1), (2, 2)] : List (Int × Nat)) =
        .ok tbl ∧
      (buildState ([((0 : Int), 1), (1, 1), (2, 2)] :
        List (Int × Nat))).2.2 = 3 ∧
      root.numLeaves = 3 ∧
      root.numInteriors + 1 = 3 ∧
      tbl = pathsOf root [] ∧
      tbl.Pairwise
        (fun a b => a.2.isPrefixOf b.2 = false ∧ b.2.isPrefixOf a.2 = false) :=
  ⟨⟨by decide, by decide⟩,
    claim3_counts_and_prefix_free [((0 : Int), 1), (1, 1), (2, 2)]
      (by decide) (by decide)⟩

/-- C8: `build_encoding` fails with `InsufficientAlphabet` precisely when the
histogram holds fewer than 2 (distinct) entries; with at least 2 entries it
always succeeds. -/
theorem claim8_insufficient_alphabet {α : Type} [DecidableEq α] [Inhabited α]
    (hist : List (α × Nat)) (hnd : (hist.map Prod.fst).Nodup) :
    (hist.length ≤ 1 →
      build_encoding hist = .error BuildErr.insufficientAlphabet) ∧
    (2 ≤ hist.length → ∃ tbl, build_encoding hist = .ok tbl) := by
  constructor
  · intro h1
    rw [build_encoding, if_pos h1]
  · intro h2
    obtain ⟨root, hroot, _, _⟩ := buildState_root hist h2
    exact ⟨walkEnc root [] [], by rw [build_encoding, if_neg (by omega), hroot]⟩

/-- Witness for C8: a 1-entry histogram fails, a 2-entry one succeeds. -/
theorem claim8_witness :
    (([((7 : Int), 5)] : List (Int × Nat)).map Prod.fst).Nodup ∧
    build_encoding ([((7 : Int), 5)] : List (Int × Nat)) =
      .error BuildErr.insufficientAlphabet ∧
    (([((0 : Int), 1), (1, 2)] : List (Int × Nat)).map Prod.fst).Nodup ∧
    ∃ tbl, build_encoding ([((0 : Int), 1), (1, 2)] : List (Int × Nat)) =
      .ok tbl :=
  ⟨by decide,
    (claim8_insufficient_alphabet [((7 : Int), 5)] (by decide)).1 (by decide),
    by decide,
    (claim8_insufficient_alphabet [((0 : Int), 1), (1, 2)]
      (by decide)).2 (by decide)⟩

/-- C9 (implicit): for every histogram with ≥ 2 entries and distinct keys,
the code table binds exactly the histogram's symbols — its key list is a
permutation of the histogram's key list, with no duplicate keys. -/
theorem claim9_table_keys {α : Type} [DecidableEq α] [Inhabited α]
    (hist : List (α × Nat)) (h2 : 2 ≤ hist.length)
    (hnd : (hist.map Prod.fst).Nodup) :
    ∃ tbl, build_encoding hist = .ok tbl ∧
      (tbl.map Prod.fst).Perm (hist.map Prod.fst) ∧
      (tbl.map Prod.fst).Nodup := by
  obtain ⟨root, _, hok, _, hkeys⟩ := build_encoding_ok_spec hist h2 hnd
  exact ⟨pathsOf root [], hok, hkeys, hkeys.nodup_iff.mpr hnd⟩

/-- Witness for C9 at the histogram {0↦1, 1↦1, 2↦2}. -/
theorem claim9_witness :
    (2 ≤ ([((0 : Int), 1), (1, 1), (2, 2)] : List (Int × Nat)).length ∧
      (([((0 : Int), 1), (1, 1), (2, 2)] : List (Int × Nat)).map
        Prod.fst).Nodup) ∧
    ∃ tbl, build_encoding ([((0 : Int), 1), (1, 1), (2, 2)] :
        List (Int × Nat)) = .ok tbl ∧
      (tbl.map Prod.fst).Perm [0, 1, 2] ∧
      (tbl.map Prod.fst).Nodup :=
  ⟨⟨by decide, by decide⟩,
    claim9_table_keys [((0 : Int), 1), (1, 1), (2, 2)] (by decide) (by decide)⟩

theorem lookup_eq_none_iff_keys {α β : Type} [BEq α] [LawfulBEq α]
    {m : List (α × β)} {k : α} :
    m.lookup k = none ↔ k ∉ m.map Prod.fst := by
  constructor
  · intro h hmem
    induction m with
    | nil => simp at hmem
    | cons p t ih =>
        obtain ⟨p1, p2⟩ := p
        simp only [List.lookup] at h
        simp only [List.map_cons, List.mem_cons] at hmem
        by_cases hk : k = p1
        · rw [hk] at h; simp at h
        · have : (k == p1) = false := by simpa using hk
          rw [this] at h
          exact ih h (hmem.resolve_left hk)
  · exact lookup_eq_none_of_not_mem_keys

/-- The early-out guard of `build_encoding` read backwards: success needs at
least two histogram entries. -/
theorem build_encoding_ok_length {α : Type} [DecidableEq α] [Inhabited α]
    {hist : List (α × Nat)} {tbl : List (α × List Bool)}
    (h : build_encoding hist = .ok tbl) : 2 ≤ hist.length := by
  by_cases hl : hist.length ≤ 1
  · rw [build_encoding, if_pos hl] at h
    exact absurd h (by simp)
  · omega

namespace MEH

/-- `hist[s]` (`std::map::operator[]` on the original histogram; in the
program `s` is always one of the histogram's keys). -/
def countOf (hist : List (Int × Nat)) (v : Int) : Nat :=
  (hist.lookup v).getD 0

/-- One insertion of the insertion sort used to model
`std::sort(symbols_least_to_most_probable, ..., hist[lhs] < hist[rhs])`.
`std::sort` is unstable and its order among equal counts is unspecified;
the model fixes a deterministic order (no theorem depends on it). -/
def insertByCount (hist : List (Int × Nat)) (x : Int) :
    List Int → List Int
  | [] => [x]
  | y :: ys =>
    if countOf hist x < countOf hist y then x :: y :: ys
    else y :: insertByCount hist x ys

/-- The histogram's keys ordered by ascending count. -/
def symbolsLeastToMost (hist : List (Int × Nat)) : List Int :=
  (hist.map Prod.fst).foldr (insertByCount hist) []

theorem insertByCount_perm (hist : List (Int × Nat)) (x : Int)
    (l : List Int) : (insertByCount hist x l).Perm (x :: l) := by
  induction l with
  | nil => simp [insertByCount]
  | cons y ys ih =>
      rw [insertByCount]
      by_cases h : countOf hist x < countOf hist y
      · rw [if_pos h]
      · rw [if_neg h]
        exact (ih.cons y).trans (List.Perm.swap x y ys)

theorem symbolsLeastToMost_perm (hist : List (Int × Nat)) :
    (symbolsLeastToMost hist).Perm (hist.map Prod.fst) := by
  rw [symbolsLeastToMost]
  induction hist.map Prod.fst with
  | nil => simp
  | cons v t ih =>
      simp only [List.foldr_cons]
      exact (insertByCount_perm hist v _).trans (ih.cons v)

/-- `working_hist[k] += c` on a `std::map`: bump the bound count if the key
is present, insert the key otherwise. -/
def addCount (w : List (Option Int × Nat)) (k : Option Int) (c : Nat) :
    List (Option Int × Nat) :=
  if (w.lookup k).isSome then
    w.map (fun p => if p.1 = k then (p.1, p.2 + c) else p)
  else w ++ [(k, c)]

/-- `working_hist.erase(k)`. -/
def eraseKey (w : List (Option Int × Nat)) (k : Option Int) :
    List (Option Int × Nat) :=
  w.filter (fun p => p.1 ≠ k)

/-- `max_length`: `std::reduce` of the codeword sizes under `max`, seed 0
(the reduction order is immaterial since `max` is associative and
commutative; the model folds left). -/
def maxCodeLen {α : Type} (tbl : List (α × List Bool)) : Nat :=
  tbl.foldl (fun m p => max m p.2.length) 0

/-- The single failure of the limiter loop:
`std::runtime_error("cannot solve encoding")`. -/
inductive LimitErr where
  | unsolvable
deriving DecidableEq

/-- The length-limiter loop (`main`, lines 160-181 of
src/memory_efficent_huffman.cc), generalized over the histogram and budget:
for each least-probable remaining symbol, fold its count into the escape
entry (`std::nullopt`, modelled `none`), erase it from the working histogram,
rebuild the code; a builder failure becomes the `Unsolvable` error, a table
within budget stops the loop (`break`); falling off the loop leaves the most
recently built table in `encoding` (initially the empty map). -/
def limitLoop (hist : List (Int × Nat)) (L : Nat) :
    List Int → List (Option Int × Nat) → List (Option Int × List Bool) →
    Except LimitErr (List (Option Int × List Bool))
  | [], _, enc => .ok enc
  | s :: rest, working, enc =>
    let w2 := eraseKey (addCount working none (countOf hist s)) (some s)
    match build_encoding w2 with
    | .error _ => .error .unsolvable
    | .ok e =>
      if maxCodeLen e ≤ L then .ok e else limitLoop hist L rest w2 e

/-- `BuildLengthLimitedCode` of the spec: the limiter run from the original
histogram (keys tagged `some`) and an initially empty `encoding`. -/
def buildLengthLimitedCode (hist : List (Int × Nat)) (L : Nat) :
    Except LimitErr (List (Option Int × List Bool)) :=
  limitLoop hist L (symbolsLeastToMost hist)
    (hist.map (fun p => (some p.1, p.2))) []

/-- The real (non-escape) symbols of the working histogram. -/
def realKeys (w : List (Option Int × Nat)) : List Int :=
  w.filterMap Prod.fst

theorem realKeys_eq (w : List (Option Int × Nat)) :
    realKeys w = (w.map Prod.fst).filterMap id := by
  rw [realKeys, List.filterMap_map]
  rfl

theorem keys_map_update (w : List (Option Int × Nat)) (k : Option Int)
    (c : Nat) :
    (w.map (fun p => if p.1 = k then (p.1, p.2 + c) else p)).map Prod.fst =
      w.map Prod.fst := by
  rw [List.map_map]
  refine List.map_congr_left ?_
  intro p _
  by_cases hp : p.1 = k <;> simp [hp]

theorem realKeys_addCount_none (w : List (Option Int × Nat)) (c : Nat) :
    realKeys (addCount w none c) = realKeys w := by
  rw [addCount]
  by_cases h : (w.lookup none).isSome
  · rw [if_pos h, realKeys_eq, keys_map_update, ← realKeys_eq]
  · rw [if_neg h, realKeys, realKeys]
    simp

theorem keys_addCount_none (w : List (Option Int × Nat)) (c : Nat) :
    none ∈ (addCount w none c).map Prod.fst := by
  rw [addCount]
  by_cases h : (w.lookup none).isSome
  · rw [if_pos h]
    obtain ⟨v, hv⟩ := Option.isSome_iff_exists.mp h
    have : none ∈ w.map Prod.fst := by
      by_contra hmem
      rw [lookup_eq_none_of_not_mem_keys hmem] at hv
      exact absurd hv (by simp)
    obtain ⟨p, hp, hfst⟩ := List.mem_map.mp this
    refine List.mem_map.mpr ⟨(p.1, p.2 + c), ?_, hfst⟩
    refine List.mem_map.mpr ⟨p, hp, ?_⟩
    rw [if_pos hfst, hfst]
  · rw [if_neg h]
    simp

theorem mem_realKeys_eraseKey {w : List (Option Int × Nat)} {s v : Int}
    (h : v ∈ realKeys (eraseKey w (some s))) :
    v ∈ realKeys w ∧ v ≠ s := by
  rw [realKeys, eraseKey] at h
  obtain ⟨p, hp, hfst⟩ := List.mem_filterMap.mp h
  obtain ⟨hpw, hne⟩ := List.mem_filter.mp hp
  constructor
  · exact List.mem_filterMap.mpr ⟨p, hpw, hfst⟩
  · intro hv
    rw [hv] at hfst
    simp at hne
    exact hne (by rw [hfst])

theorem keys_eraseKey_some (w : List (Option Int × Nat)) (s : Int)
    (h : none ∈ w.map Prod.fst) :
    none ∈ (eraseKey w (some s)).map Prod.fst := by
  obtain ⟨p, hp, hfst⟩ := List.mem_map.mp h
  refine List.mem_map.mpr ⟨p, ?_, hfst⟩
  rw [eraseKey, List.mem_filter]
  exact ⟨hp, by simp [hfst]⟩

theorem keys_nodup_addCount (w : List (Option Int × Nat)) (k : Option Int)
    (c : Nat) (h : (w.map Prod.fst).Nodup) :
    ((addCount w k c).map Prod.fst).Nodup := by
  rw [addCount]
  by_cases hl : (w.lookup k).isSome
  · rw [if_pos hl]
    rw [keys_map_update]
    exact h
  · rw [if_neg hl]
    rw [List.map_append]
    refine List.Nodup.append h (by simp) ?_
    intro x hx hx'
    simp only [List.map_cons, List.map_nil, List.mem_singleton] at hx'
    subst hx'
    rw [Option.not_isSome_iff_eq_none, lookup_eq_none_iff_keys] at hl
    exact hl hx

theorem keys_nodup_eraseKey (w : List (Option Int × Nat)) (k : Option Int)
    (h : (w.map Prod.fst).Nodup) :
    ((eraseKey w k).map Prod.fst).Nodup := by
  rw [eraseKey]
  exact h.sublist ((List.filter_sublist w).map Prod.fst)

/-- A working histogram with distinct keys, all of them the escape key, has
at most one entry. -/
theorem length_le_one_of_keys_none (w : List (Option Int × Nat))
    (hnd : (w.map Prod.fst).Nodup)
    (hall : ∀ k ∈ w.map Prod.fst, k = none) : w.length ≤ 1 := by
  cases w with
  | nil => simp
  | cons p t =>
      cases t with
      | nil => simp
      | cons q u =>
          exfalso
          simp only [List.map_cons, List.nodup_cons, List.mem_cons] at hnd
          have hp : p.1 = none := hall p.1 (by simp)
          have hq : q.1 = none := hall q.1 (by simp)
          exact hnd.1 (Or.inl (hp.trans hq.symm))

theorem mem_realKeys_of_some_mem {w : List (Option Int × Nat)} {v : Int}
    (h : some v ∈ w.map Prod.fst) : v ∈ realKeys w := by
  obtain ⟨p, hp, hfst⟩ := List.mem_map.mp h
  exact List.mem_filterMap.mpr ⟨p, hp, hfst⟩

/-- Invariant run of the limiter loop: starting from a working histogram
with distinct keys whose real symbols all lie in the remaining symbol list,
a successful run either broke out with a within-budget table containing the
escape key, or never entered the loop body (returning `enc` unchanged). -/
theorem limitLoop_spec (hist : List (Int × Nat)) (L : Nat) :
    ∀ (syms : List Int) (working : List (Option Int × Nat))
      (enc tbl : List (Option Int × List Bool)),
    (working.map Prod.fst).Nodup →
    (∀ v ∈ realKeys working, v ∈ syms) →
    limitLoop hist L syms working enc = .ok tbl →
    (syms = [] ∧ tbl = enc) ∨
    (maxCodeLen tbl ≤ L ∧ none ∈ tbl.map Prod.fst) := by
  intro syms
  induction syms with
  | nil =>
      intro working enc tbl _ _ h
      simp only [limitLoop] at h
      exact Or.inl ⟨rfl, (Except.ok.inj h).symm⟩
  | cons s rest ih =>
      intro working enc tbl hnd hsub h
      simp only [limitLoop] at h
      set w2 := eraseKey (addCount working none (countOf hist s)) (some s)
        with hw2
      cases hb : build_encoding w2 with
      | error err =>
          simp only [hb] at h
          exact absurd h (by simp)
      | ok e =>
          simp only [hb] at h
          have hnd2 : (w2.map Prod.fst).Nodup :=
            keys_nodup_eraseKey _ _ (keys_nodup_addCount _ _ _ hnd)
          have hlen2 : 2 ≤ w2.length := build_encoding_ok_length hb
          have hnone2 : none ∈ w2.map Prod.fst :=
            keys_eraseKey_some _ s (keys_addCount_none working _)
          have hkeys : (e.map Prod.fst).Perm (w2.map Prod.fst) := by
            obtain ⟨root, _, hok, _, hk⟩ := build_encoding_ok_spec w2 hlen2 hnd2
            have : pathsOf root [] = e := by
              have := hok.symm.trans hb
              simpa using this
            rw [← this]
            exact hk
          have hsub2 : ∀ v ∈ realKeys w2, v ∈ rest := by
            intro v hv
            obtain ⟨hv1, hvne⟩ := mem_realKeys_eraseKey hv
            rw [realKeys_addCount_none] at hv1
            rcases List.mem_cons.mp (hsub v hv1) with hc | hc
            · exact absurd hc hvne
            · exact hc
          by_cases hmax : maxCodeLen e ≤ L
          · rw [if_pos hmax] at h
            have he : e = tbl := by simpa using h
            subst he
            exact Or.inr ⟨hmax, hkeys.mem_iff.mpr hnone2⟩
          · rw [if_neg hmax] at h
            rcases ih w2 e tbl hnd2 hsub2 h with ⟨hrest, _⟩ | hgood
            · exfalso
              subst hrest
              have hall : ∀ k ∈ w2.map Prod.fst, k = none := by
                intro k hk
                cases k with
                | none => rfl
                | some v =>
                    exact absurd (hsub2 v (mem_realKeys_of_some_mem hk))
                      (List.not_mem_nil v)
              have := length_le_one_of_keys_none w2 hnd2 hall
              omega
            · exact Or.inr hgood

theorem initial_working_nodup (hist : List (Int × Nat))
    (hnd : (hist.map Prod.fst).Nodup) :
    ((hist.map (fun p => ((some p.1 : Option Int), p.2))).map
      Prod.fst).Nodup := by
  have heq : (hist.map (fun p => ((some p.1 : Option Int), p.2))).map
      Prod.fst = (hist.map Prod.fst).map some := by
    simp [List.map_map]
  rw [heq]
  exact hnd.map (Option.some_injective Int)

theorem initial_working_realKeys (hist : List (Int × Nat)) :
    realKeys (hist.map (fun p => ((some p.1 : Option Int), p.2))) =
      hist.map Prod.fst := by
  induction hist with
  | nil => rfl
  | cons p t ih =>
      simp only [realKeys, List.map_cons, List.filterMap_cons] at ih ⊢
      rw [ih]

/-- C7: for every histogram (distinct keys) and every budget L ≥ 1, the
length-limited build either returns a table whose maximum codeword length is
within the budget, or fails with the `Unsolvable` error; it never returns a
table exceeding the budget. -/
theorem claim7_length_limited_within_budget (hist : List (Int × Nat))
    (hnd : (hist.map Prod.fst).Nodup) (L : Nat) (hL : 1 ≤ L) :
    (∃ tbl, buildLengthLimitedCode hist L = .ok tbl ∧ maxCodeLen tbl ≤ L) ∨
    buildLengthLimitedCode hist L = .error LimitErr.unsolvable := by
  cases hres : buildLengthLimitedCode hist L with
  | error e =>
      cases e
      exact Or.inr rfl
  | ok tbl =>
      left
      refine ⟨tbl, rfl, ?_⟩
      have hsub : ∀ v ∈ realKeys (hist.map
          (fun p => ((some p.1 : Option Int), p.2))),
          v ∈ symbolsLeastToMost hist := by
        intro v hv
        rw [(symbolsLeastToMost_perm hist).mem_iff]
        rw [initial_working_realKeys] at hv
        exact hv
      rcases limitLoop_spec hist L (symbolsLeastToMost hist) _ [] tbl
        (initial_working_nodup hist hnd) hsub hres with ⟨_, htbl⟩ | ⟨hmax, _⟩
      · subst htbl
        exact Nat.zero_le L
      · exact hmax

/-- Witness for C7 at the histogram {0↦1, 1↦1, 2↦2}, L = 8. -/
theorem claim7_witness :
    ((([((0 : Int), 1), (1, 1), (2, 2)] : List (Int × Nat)).map
      Prod.fst).Nodup ∧ 1 ≤ 8) ∧
    ((∃ tbl, buildLengthLimitedCode [((0 : Int), 1), (1, 1), (2, 2)] 8 =
        .ok tbl ∧ maxCodeLen tbl ≤ 8) ∨
      buildLengthLimitedCode [((0 : Int), 1), (1, 1), (2, 2)] 8 =
        .error LimitErr.unsolvable) :=
  ⟨⟨by decide, by decide⟩,
    claim7_length_limited_within_budget [((0 : Int), 1), (1, 1), (2, 2)]
      (by decide) 8 (by decide)⟩

/-- C6 (amended): whenever the limiter returns a table for a nonempty
histogram, the escape symbol is present in it — the loop body merges the
least probable symbol into the escape entry *before* the first budget check,
so a merge-free success path does not exist (the empty histogram alone skips
the loop and yields the empty table). -/
theorem claim6_escape_always_present (hist : List (Int × Nat))
    (hnd : (hist.map Prod.fst).Nodup) (hne : hist ≠ []) (L : Nat)
    (tbl : List (Option Int × List Bool))
    (hok : buildLengthLimitedCode hist L = .ok tbl) :
    none ∈ tbl.map Prod.fst := by
  have hsub : ∀ v ∈ realKeys (hist.map
      (fun p => ((some p.1 : Option Int), p.2))),
      v ∈ symbolsLeastToMost hist := by
    intro v hv
    rw [(symbolsLeastToMost_perm hist).mem_iff]
    rw [initial_working_realKeys] at hv
    exact hv
  rcases limitLoop_spec hist L (symbolsLeastToMost hist) _ [] tbl
    (initial_working_nodup hist hnd) hsub hok with ⟨hsyms, _⟩ | ⟨_, hmem⟩
  · exfalso
    have hlen := (symbolsLeastToMost_perm hist).length_eq
    rw [hsyms] at hlen
    simp only [List.length_nil, List.length_map] at hlen
    exact hne (List.eq_nil_of_length_eq_zero hlen.symm)
  · exact hmem

/-- C6 as stated is refuted: for the histogram {0↦1, 1↦1, 2↦2} with budget 8
the unmerged histogram already satisfies the budget (its plain code has
maximum codeword length 2 ≤ 8, so no merge was needed), yet the limiter
returns a table that does contain the escape symbol — the loop merges the
least probable symbol before its first budget check. -/
theorem claim6_counterexample :
    build_encoding ([(some (0 : Int), 1), (some 1, 1), (some 2, 2)] :
        List (Option Int × Nat)) =
      .ok [(some 2, [false]), (some 0, [true, false]),
        (some 1, [true, true])] ∧
    maxCodeLen [((some (2 : Int)), [false]), (some 0, [true, false]),
      (some 1, [true, true])] ≤ 8 ∧
    buildLengthLimitedCode [((0 : Int), 1), (1, 1), (2, 2)] 8 =
      .ok [(some 2, [false]), (some 0, [true, false]),
        (none, [true, true])] ∧
    none ∈ ([(some 2, [false]), (some 0, [true, false]),
      (none, [true, true])] : List (Option Int × List Bool)).map Prod.fst :=
  ⟨rfl, by decide, rfl, by decide⟩

/-- Witness for the amended C6 at the histogram {0↦1, 1↦1, 2↦2}, L = 8. -/
theorem claim6_witness :
    ((([((0 : Int), 1), (1, 1), (2, 2)] : List (Int × Nat)).map
        Prod.fst).Nodup ∧
      ([((0 : Int), 1), (1, 1), (2, 2)] : List (Int × Nat)) ≠ [] ∧
      buildLengthLimitedCode [((0 : Int), 1), (1, 1), (2, 2)] 8 =
        .ok [(some 2, [false]), (some 0, [true, false]),
          (none, [true, true])]) ∧
    none ∈ ([(some 2, [false]), (some 0, [true, false]),
      (none, [true, true])] : List (Option Int × List Bool)).map Prod.fst :=
  ⟨⟨by decide, by decide, rfl⟩,
    claim6_escape_always_present [((0 : Int), 1), (1, 1), (2, 2)]
      (by decide) (by decide) 8
      [(some 2, [false]), (some 0, [true, false]), (none, [true, true])]
      rfl⟩

/-! ### Encode loop of `main` (dense table, escape side channel) -/

/-- The escape condition of the encode loop (`main`, line 218):
`encode_index < 0 || encode_index >= (int)encoding_table.size() ||
encoding_table[encode_index] == unpredictable_encoding`. -/
def escCond (table : List (List Bool)) (esc : List Bool) (lnnv : Int)
    (i : Int) : Bool :=
  decide (i - lnnv < 0) || decide ((table.length : Int) ≤ i - lnnv) ||
    decide (table.getD (i - lnnv).toNat [] = esc)

/-- The bits appended for one symbol: its dense-table codeword, or the
escape codeword when the escape condition fires. -/
def encOne (table : List (List Bool)) (esc : List Bool) (lnnv : Int)
    (i : Int) : List Bool :=
  if escCond table esc lnnv i then esc else table.getD (i - lnnv).toNat []

/-- The encode loop (`main`, lines 216-226): thread
(`encoded_sequence`, `unpredictable`) through the sequence, appending the
escape codeword and recording the true value on the escape path, else
appending the table codeword. -/
def encodeLoop (table : List (List Bool)) (esc : List Bool) (lnnv : Int)
    (seq : List Int) : List Bool × List Int :=
  seq.foldl
    (fun st i =>
      if escCond table esc lnnv i then (st.1 ++ esc, st.2 ++ [i])
      else (st.1 ++ table.getD (i - lnnv).toNat [], st.2))
    ([], [])

theorem encodeLoop_go (table : List (List Bool)) (esc : List Bool)
    (lnnv : Int) (seq : List Int) :
    ∀ (b : List Bool) (sd : List Int),
    seq.foldl
      (fun st i =>
        if escCond table esc lnnv i then (st.1 ++ esc, st.2 ++ [i])
        else (st.1 ++ table.getD (i - lnnv).toNat [], st.2))
      (b, sd) =
    (b ++ (seq.map (encOne table esc lnnv)).flatten,
     sd ++ seq.filter (escCond table esc lnnv)) := by
  induction seq with
  | nil => intro b sd; simp
  | cons i t ih =>
      intro b sd
      simp only [List.foldl_cons, List.map_cons, List.flatten_cons]
      by_cases h : escCond table esc lnnv i
      · rw [if_pos h, ih, List.filter_cons_of_pos h]
        rw [encOne, if_pos h]
        simp
      · rw [if_neg h, ih, List.filter_cons_of_neg (by simpa using h)]
        rw [encOne, if_neg h]
        simp

/-- Shared characterization of the encode loop: the bitstream is the
concatenation of the per-symbol codewords and the side channel lists the
escaped symbols in sequence order. -/
theorem encodeLoop_eq (table : List (List Bool)) (esc : List Bool)
    (lnnv : Int) (seq : List Int) :
    encodeLoop table esc lnnv seq =
      ((seq.map (encOne table esc lnnv)).flatten,
       seq.filter (escCond table esc lnnv)) := by
  rw [encodeLoop, encodeLoop_go]
  simp

/-- C10 (implicit): the encoder is total — it never fails on any `int32`
symbol.  Every symbol contributes exactly its codeword (the escape codeword
when its index falls outside the dense table or its slot holds the escape
codeword), in sequence order, and the side channel receives exactly the
escaped symbols' true values, in sequence order. -/
theorem claim10_encoder_total (table : List (List Bool)) (esc : List Bool)
    (lnnv : Int) (seq : List Int) :
    encodeLoop table esc lnnv seq =
      ((seq.map (encOne table esc lnnv)).flatten,
       seq.filter (escCond table esc lnnv)) :=
  encodeLoop_eq table esc lnnv seq

/-! ### Decode loop of `main` -/

/-- The index map built by the loop
`for i: encodings_to_indices[encoding_table[i]] = i` — realized as iterated
function update, so a later index overwrites an earlier equal key, exactly
like repeated `operator[]` assignment. -/
def encToIdxBase (table : List (List Bool)) : List Bool → Option Nat :=
  (List.range table.length).foldl
    (fun m i => fun cw => if cw = table.getD i [] then some i else m cw)
    (fun _ => none)

/-- The final map, after `encodings_to_indices[unpredictable_encoding] = 0`
(the value 0 is never read on the escape path). -/
def encToIdx (table : List (List Bool)) (esc : List Bool) :
    List Bool → Option Nat :=
  fun cw => if cw = esc then some 0 else encToIdxBase table cw

/-- The decode loop (`main`, lines 236-248): push each bit onto `so_far`;
on an exact table match, emit the decoded symbol (index plus least coded
value, or the next side-channel value on the escape codeword, consumed
FIFO) and clear the accumulator.  The loop body never raises an error; the
final state keeps whatever unmatched bits remain in the accumulator. -/
def decodeLoop (table : List (List Bool)) (esc : List Bool) (lnnv : Int)
    (side : List Int) :
    List Bool → List Bool → List Int → Nat → List Int × List Bool × Nat
  | [], so_far, decoded, u => (decoded, so_far, u)
  | b :: bits, so_far, decoded, u =>
    let sf := so_far ++ [b]
    if (encToIdx table esc sf).isSome then
      if sf ≠ esc then
        decodeLoop table esc lnnv side bits []
          (decoded ++ [((encToIdx table esc sf).getD 0 : Int) + lnnv]) u
      else
        decodeLoop table esc lnnv side bits []
          (decoded ++ [side.getD u 0]) (u + 1)
    else
      decodeLoop table esc lnnv side bits sf decoded u

/-- The whole decode pass, started with empty accumulator, empty output and
side-channel cursor 0; returns (decoded sequence, final accumulator, final
cursor). -/
def decodeAll (table : List (List Bool)) (esc : List Bool) (lnnv : Int)
    (side : List Int) (bits : List Bool) : List Int × List Bool × Nat :=
  decodeLoop table esc lnnv side bits [] [] 0

theorem getD_mem_of_lt {l : List (List Bool)} {n : Nat} (h : n < l.length) :
    l.getD n [] ∈ l := by
  rw [List.getD_eq_getElem?_getD, List.getElem?_eq_getElem h]
  simp [List.getElem_mem]

theorem encToIdxBase_aux (table : List (List Bool)) (cw : List Bool) :
    ∀ n : Nat,
    ((((List.range n).foldl
      (fun m i => fun c => if c = table.getD i [] then some i else m c)
      (fun _ => none)) cw).isSome ↔ ∃ i, i < n ∧ table.getD i [] = cw) ∧
    (∀ j, ((List.range n).foldl
      (fun m i => fun c => if c = table.getD i [] then some i else m c)
      (fun _ => none)) cw = some j → j < n ∧ table.getD j [] = cw) := by
  intro n
  induction n with
  | zero => simp
  | succ k ih =>
      have hfold : ((List.range (k + 1)).foldl
          (fun m i => fun c => if c = table.getD i [] then some i else m c)
          (fun _ => none)) cw =
          if cw = table.getD k [] then some k else
            ((List.range k).foldl
              (fun m i => fun c => if c = table.getD i [] then some i else m c)
              (fun _ => none)) cw := by
        rw [List.range_succ, List.foldl_append, List.foldl_cons, List.foldl_nil]
      rw [hfold]
      by_cases h : cw = table.getD k []
      · rw [if_pos h]
        refine ⟨⟨fun _ => ⟨k, by omega, h.symm⟩, fun _ => by simp⟩, ?_⟩
        intro j hj
        have : k = j := by simpa using hj
        subst this
        exact ⟨by omega, h.symm⟩
      · rw [if_neg h]
        refine ⟨?_, ?_⟩
        · rw [ih.1]
          constructor
          · rintro ⟨i, hi, hp⟩
            exact ⟨i, by omega, hp⟩
          · rintro ⟨i, hi, hp⟩
            by_cases hik : i = k
            · subst hik
              exact absurd hp.symm h
            · exact ⟨i, by omega, hp⟩
        · intro j hj
          obtain ⟨h1, h2⟩ := ih.2 j hj
          exact ⟨by omega, h2⟩

theorem encToIdxBase_isSome_iff (table : List (List Bool)) (cw : List Bool) :
    (encToIdxBase table cw).isSome ↔ cw ∈ table := by
  rw [encToIdxBase, (encToIdxBase_aux table cw table.length).1]
  constructor
  · rintro ⟨i, hi, hp⟩
    rw [← hp]
    exact getD_mem_of_lt hi
  · intro hmem
    obtain ⟨i, hi, hp⟩ := List.mem_iff_getElem.mp hmem
    refine ⟨i, hi, ?_⟩
    rw [List.getD_eq_getElem?_getD, List.getElem?_eq_getElem hi]
    simpa using hp

theorem encToIdxBase_eq_of_inj (table : List (List Bool)) (esc : List Bool)
    (cw : List Bool) (idx : Nat)
    (H4 : ∀ i < table.length, ∀ j < table.length,
      table.getD i [] = table.getD j [] → table.getD i [] ≠ esc → i = j)
    (hidx : idx < table.length) (hcw : table.getD idx [] = cw)
    (hne : cw ≠ esc) :
    encToIdxBase table cw = some idx := by
  have hsome : (encToIdxBase table cw).isSome :=
    (encToIdxBase_isSome_iff _ _).mpr (hcw ▸ getD_mem_of_lt hidx)
  obtain ⟨j, hj⟩ := Option.isSome_iff_exists.mp hsome
  obtain ⟨hjl, hjp⟩ := (encToIdxBase_aux table cw table.length).2 j hj
  have heq : idx = j := H4 idx hidx j hjl (by rw [hcw, hjp])
    (by rw [hcw]; exact hne)
  rw [hj, heq]

/-- Bits none of whose nonempty prefixes (relative to the accumulator) match
any table entry are simply accumulated until the input runs out — no error,
no output. -/
theorem decodeLoop_no_match (table : List (List Bool)) (esc : List Bool)
    (lnnv : Int) (side : List Int) :
    ∀ (t p : List Bool) (d : List Int) (u : Nat),
    (∀ q r, q ++ r = t → q ≠ [] → encToIdx table esc (p ++ q) = none) →
    decodeLoop table esc lnnv side t p d u = (d, p ++ t, u) := by
  intro t
  induction t with
  | nil =>
      intro p d u _
      simp [decodeLoop]
  | cons x t' ih =>
      intro p d u hnm
      have h1 : encToIdx table esc (p ++ [x]) = none :=
        hnm [x] t' rfl (by simp)
      simp only [decodeLoop]
      rw [if_neg (by rw [h1]; simp)]
      rw [ih (p ++ [x]) d u ?_]
      · rw [List.append_assoc]
        rfl
      · intro q r hqr hq
        rw [List.append_assoc]
        exact hnm (x :: q) r (by rw [← hqr]; rfl) (by simp)

/-- Consuming one complete codeword: scanning its bits never matches early
(prefix-freeness), and at its last bit the decoder emits — via the side
channel on the escape codeword, via the index map otherwise — and clears the
accumulator. -/
theorem decodeLoop_consume (table : List (List Bool)) (esc : List Bool)
    (lnnv : Int) (side : List Int)
    (H3 : ∀ c1 ∈ esc :: table, ∀ c2 ∈ esc :: table, c1 ≠ c2 →
      c1.isPrefixOf c2 = false) :
    ∀ (suffix p rest : List Bool) (d : List Int) (u : Nat),
    suffix ≠ [] → (p ++ suffix) ∈ esc :: table →
    decodeLoop table esc lnnv side (suffix ++ rest) p d u =
      if p ++ suffix = esc then
        decodeLoop table esc lnnv side rest [] (d ++ [side.getD u 0]) (u + 1)
      else
        decodeLoop table esc lnnv side rest []
          (d ++ [((encToIdx table esc (p ++ suffix)).getD 0 : Int) + lnnv])
          u := by
  intro suffix
  induction suffix with
  | nil =>
      intro p rest d u hne
      exact absurd rfl hne
  | cons x s' ih =>
      intro p rest d u hne hmem
      cases s' with
      | nil =>
          have hsome : (encToIdx table esc (p ++ [x])).isSome := by
            rw [encToIdx]
            by_cases hesc : p ++ [x] = esc
            · rw [if_pos hesc]
              rfl
            · rw [if_neg hesc]
              rw [encToIdxBase_isSome_iff]
              rcases List.mem_cons.mp hmem with hc | hc
              · exact absurd hc hesc
              · exact hc
          simp only [List.cons_append, List.nil_append, decodeLoop]
          rw [if_pos hsome]
          by_cases hesc : p ++ [x] = esc
          · rw [if_neg (by simpa using hesc), if_pos hesc]
            rfl
          · rw [if_pos (by simpa using hesc), if_neg hesc]
            rfl
      | cons y s'' =>
          have hproper : p ++ [x] ≠ p ++ (x :: y :: s'') := by
            intro hcontra
            have := List.append_cancel_left hcontra
            simp at this
          have hpre : (p ++ [x]).isPrefixOf (p ++ (x :: y :: s'')) = true := by
            rw [isPrefixOf_iff_exists]
            exact ⟨y :: s'', by simp⟩
          have hnone : encToIdx table esc (p ++ [x]) = none := by
            rw [encToIdx]
            have hnotC : (p ++ [x]) ∉ esc :: table := by
              intro hmem'
              have := H3 (p ++ [x]) hmem' (p ++ (x :: y :: s'')) hmem hproper
              rw [hpre] at this
              exact absurd this (by simp)
            have hnesc : p ++ [x] ≠ esc := by
              intro h
              exact hnotC (by rw [h]; exact List.mem_cons_self _ _)
            rw [if_neg hnesc]
            rw [Option.eq_none_iff_forall_not_mem]
            intro j hj
            have : (encToIdxBase table (p ++ [x])).isSome := by
              rw [hj]
              rfl
            rw [encToIdxBase_isSome_iff] at this
            exact hnotC (List.mem_cons_of_mem _ this)
          have hassoc : (p ++ [x]) ++ (y :: s'') = p ++ (x :: y :: s'') := by
            simp
          simp only [List.cons_append, decodeLoop]
          rw [if_neg (by rw [hnone]; simp)]
          have hmem' : ((p ++ [x]) ++ (y :: s'')) ∈ esc :: table := by
            rw [hassoc]
            exact hmem
          have := ih (p ++ [x]) rest d u (by simp) hmem'
          rw [hassoc] at this
          exact this

/-- Round-trip core: decoding the concatenated codewords of `S` (followed by
any continuation `b`) appends `S` to the output and advances the
side-channel cursor past `S`'s escapes, provided the codeword set is
prefix-free (`H3`), has no empty codeword (`H1`, `H2`), and non-escape
table slots are pairwise distinct (`H4`). -/
theorem decode_encBits (table : List (List Bool)) (esc : List Bool)
    (lnnv : Int) (side : List Int)
    (H1 : esc ≠ []) (H2 : ∀ c ∈ table, c ≠ [])
    (H3 : ∀ c1 ∈ esc :: table, ∀ c2 ∈ esc :: table, c1 ≠ c2 →
      c1.isPrefixOf c2 = false)
    (H4 : ∀ i < table.length, ∀ j < table.length,
      table.getD i [] = table.getD j [] → table.getD i [] ≠ esc → i = j) :
    ∀ (S : List Int) (b : List Bool) (d : List Int) (u : Nat),
    side.drop u = S.filter (escCond table esc lnnv) →
    decodeLoop table esc lnnv side
      ((S.map (encOne table esc lnnv)).flatten ++ b) [] d u =
    decodeLoop table esc lnnv side b [] (d ++ S)
      (u + (S.filter (escCond table esc lnnv)).length) := by
  intro S
  induction S with
  | nil =>
      intro b d u hside
      simp
  | cons i S' ih =>
      intro b d u hside
      simp only [List.map_cons, List.flatten_cons, List.append_assoc]
      by_cases h : escCond table esc lnnv i
      · -- escape path
        have hEi : encOne table esc lnnv i = esc := by rw [encOne, if_pos h]
        have hcons := decodeLoop_consume table esc lnnv side H3
          (encOne table esc lnnv i) []
          ((S'.map (encOne table esc lnnv)).flatten ++ b) d u
          (by rw [hEi]; exact H1)
          (by rw [hEi]; exact List.mem_cons_self _ _)
        simp only [List.nil_append] at hcons
        rw [hcons, if_pos hEi]
        have hfc : (i :: S').filter (escCond table esc lnnv) =
            i :: S'.filter (escCond table esc lnnv) :=
          List.filter_cons_of_pos h
        rw [hfc] at hside
        have hgd : side.getD u 0 = i := by
          have h0 : side[u]? = some i := by
            have hh := congrArg (fun l => l[0]?) hside
            simpa [List.getElem?_drop] using hh
          rw [List.getD_eq_getElem?_getD, h0]
          rfl
        have hdrop : side.drop (u + 1) =
            S'.filter (escCond table esc lnnv) := by
          have hh := congrArg (List.drop 1) hside
          rw [List.drop_drop] at hh
          simpa using hh
        rw [hgd, ih _ _ _ hdrop]
        have e1 : (d ++ [i]) ++ S' = d ++ (i :: S') := by simp
        have e2 : u + 1 + (S'.filter (escCond table esc lnnv)).length =
            u + ((i :: S').filter (escCond table esc lnnv)).length := by
          rw [hfc]
          simp only [List.length_cons]
          omega
        rw [e1, e2]
      · -- in-table path
        have hparts : (lnnv ≤ i ∧ i - lnnv < (table.length : Int)) ∧
            ¬(table[(i - lnnv).toNat]?.getD [] = esc) := by
          rw [escCond] at h
          simpa using h
        obtain ⟨⟨hge, hlt⟩, hnesc'⟩ := hparts
        have hn3 : ¬(table.getD (i - lnnv).toNat [] = esc) := by
          rw [List.getD_eq_getElem?_getD]
          exact hnesc'
        have hidxlt : (i - lnnv).toNat < table.length := by
          rw [Int.toNat_lt (by omega)]
          exact hlt
        have hEi : encOne table esc lnnv i =
            table.getD (i - lnnv).toNat [] := by
          rw [encOne, if_neg h]
        have hne : encOne table esc lnnv i ≠ [] := by
          rw [hEi]
          exact H2 _ (getD_mem_of_lt hidxlt)
        have hnesc : encOne table esc lnnv i ≠ esc := by
          rw [hEi]
          exact hn3
        have hcons := decodeLoop_consume table esc lnnv side H3
          (encOne table esc lnnv i) []
          ((S'.map (encOne table esc lnnv)).flatten ++ b) d u hne
          (by rw [hEi]; exact List.mem_cons_of_mem _ (getD_mem_of_lt hidxlt))
        simp only [List.nil_append] at hcons
        rw [hcons, if_neg hnesc]
        have hval : encToIdx table esc (encOne table esc lnnv i) =
            some (i - lnnv).toNat := by
          rw [encToIdx, if_neg hnesc, hEi]
          exact encToIdxBase_eq_of_inj table esc _ _ H4 hidxlt rfl hn3
        rw [hval]
        have hfc : (i :: S').filter (escCond table esc lnnv) =
            S'.filter (escCond table esc lnnv) :=
          List.filter_cons_of_neg (by simpa using h)
        rw [hfc] at hside
        rw [ih _ _ _ hside]
        have e1 : (d ++ [((some (i - lnnv).toNat).getD 0 : Int) + lnnv]) ++ S'
            = d ++ (i :: S') := by
          have hcast : (((i - lnnv).toNat : Int)) + lnnv = i := by
            rw [Int.toNat_of_nonneg (by omega)]
            omega
          rw [Option.getD_some, hcast]
          simp
        have e2 : u + (S'.filter (escCond table esc lnnv)).length =
            u + ((i :: S').filter (escCond table esc lnnv)).length := by
          rw [hfc]
        rw [e1, e2]

/-- C1: decoding the bitstream produced by encoding any symbol sequence
(together with the side channel produced by that encode) yields exactly the
original sequence — for every code table whose codewords (dense slots plus
the escape codeword) are nonempty and prefix-free, with distinct non-escape
slots.  The sequence is arbitrary: symbols outside the dense range travel
through the escape side channel. -/
theorem claim1_roundtrip (table : List (List Bool)) (esc : List Bool)
    (lnnv : Int)
    (H1 : esc ≠ []) (H2 : ∀ c ∈ table, c ≠ [])
    (H3 : ∀ c1 ∈ esc :: table, ∀ c2 ∈ esc :: table, c1 ≠ c2 →
      c1.isPrefixOf c2 = false)
    (H4 : ∀ i < table.length, ∀ j < table.length,
      table.getD i [] = table.getD j [] → table.getD i [] ≠ esc → i = j)
    (S : List Int) :
    (decodeAll table esc lnnv (encodeLoop table esc lnnv S).2
      (encodeLoop table esc lnnv S).1).1 = S := by
  simp only [encodeLoop_eq]
  rw [decodeAll]
  have hmain := decode_encBits table esc lnnv
    (S.filter (escCond table esc lnnv)) H1 H2 H3 H4 S [] [] 0 (by simp)
  rw [List.append_nil] at hmain
  rw [hmain]
  simp [decodeLoop]

/-- Witness for C1: dense table [[0], [10], [11]] with escape [11],
least value −1, sequence containing in-range, escape-slot and out-of-range
symbols. -/
theorem claim1_witness :
    (([true, true] : List Bool) ≠ [] ∧
      (∀ c ∈ [[false], [true, false], [true, true]], c ≠ []) ∧
      (∀ c1 ∈ [true, true] :: [[false], [true, false], [true, true]],
        ∀ c2 ∈ [true, true] :: [[false], [true, false], [true, true]],
        c1 ≠ c2 → c1.isPrefixOf c2 = false) ∧
      (∀ i < ([[false], [true, false], [true, true]] :
          List (List Bool)).length,
        ∀ j < ([[false], [true, false], [true, true]] :
          List (List Bool)).length,
        ([[false], [true, false], [true, true]] :
          List (List Bool)).getD i [] =
          ([[false], [true, false], [true, true]] :
            List (List Bool)).getD j [] →
        ([[false], [true, false], [true, true]] :
          List (List Bool)).getD i [] ≠ [true, true] → i = j)) ∧
    (decodeAll [[false], [true, false], [true, true]] [true, true] (-1)
      (encodeLoop [[false], [true, false], [true, true]] [true, true] (-1)
        [-1, 0, 1, 5]).2
      (encodeLoop [[false], [true, false], [true, true]] [true, true] (-1)
        [-1, 0, 1, 5]).1).1 = [-1, 0, 1, 5] :=
  ⟨⟨by decide, by decide, by decide, by decide⟩,
    claim1_roundtrip [[false], [true, false], [true, true]] [true, true]
      (-1) (by decide) (by decide) (by decide) (by decide) [-1, 0, 1, 5]⟩

/-- C5 (amended): the decoder never fails.  Decoding a full encode output
followed by trailing bits none of whose nonempty prefixes match any table
entry returns the complete sequence, with the trailing bits left in the
accumulator and silently not decoded — no `MalformedBitstream` (or any
other) error exists in the decode loop. -/
theorem claim5_trailing_bits_are_dropped (table : List (List Bool))
    (esc : List Bool) (lnnv : Int)
    (H1 : esc ≠ []) (H2 : ∀ c ∈ table, c ≠ [])
    (H3 : ∀ c1 ∈ esc :: table, ∀ c2 ∈ esc :: table, c1 ≠ c2 →
      c1.isPrefixOf c2 = false)
    (H4 : ∀ i < table.length, ∀ j < table.length,
      table.getD i [] = table.getD j [] → table.getD i [] ≠ esc → i = j)
    (S : List Int) (t : List Bool)
    (hnm : ∀ k ≤ t.length, k ≠ 0 → encToIdx table esc (t.take k) = none) :
    decodeAll table esc lnnv (encodeLoop table esc lnnv S).2
      ((encodeLoop table esc lnnv S).1 ++ t) =
      (S, t, (S.filter (escCond table esc lnnv)).length) := by
  simp only [encodeLoop_eq]
  rw [decodeAll]
  rw [decode_encBits table esc lnnv (S.filter (escCond table esc lnnv))
    H1 H2 H3 H4 S t [] 0 (by simp)]
  rw [decodeLoop_no_match table esc lnnv _ t [] _ _ ?_]
  · simp
  · intro q r hqr hq
    have hqt : q = t.take q.length := by
      rw [← hqr, List.take_left]
    have hlen : q.length ≤ t.length := by
      rw [← hqr]
      simp
    have := hnm q.length hlen (by simpa using hq)
    rw [← hqt] at this
    simpa using this

/-- C5 as stated is refuted: on the dense table [[0]] with escape [11], the
bitstream `01` exhausts with the accumulator holding the unmatched bit `1`,
yet the decoder does not fail — it returns the decoded prefix `[0]` and
leaves the residual accumulator `[true]` (there is no `MalformedBitstream`
failure anywhere in the decode loop). -/
theorem claim5_counterexample :
    decodeAll [[false]] [true, true] 0 [] [false, true] =
      ([0], [true], 0) ∧
    ([true] : List Bool) ≠ [] ∧
    encToIdx [[false]] [true, true] [true] = none :=
  ⟨rfl, by decide, rfl⟩

/-- Witness for the amended C5: sequence [0], trailing bit `1`. -/
theorem claim5_witness :
    (∀ k ≤ ([true] : List Bool).length, k ≠ 0 →
      encToIdx [[false], [true, false], [true, true]] [true, true]
        (([true] : List Bool).take k) = none) ∧
    decodeAll [[false], [true, false], [true, true]] [true, true] (-1)
      (encodeLoop [[false], [true, false], [true, true]] [true, true] (-1)
        [0]).2
      ((encodeLoop [[false], [true, false], [true, true]] [true, true] (-1)
        [0]).1 ++ [true]) =
      ([0], [true],
        (([0] : List Int).filter
          (escCond [[false], [true, false], [true, true]] [true, true]
            (-1))).length) :=
  ⟨by decide,
    claim5_trailing_bits_are_dropped [[false], [true, false], [true, true]]
      [true, true] (-1) (by decide) (by decide) (by decide) (by decide)
      [0] [true] (by decide)⟩

/-! ### The dense-table materializer of `main` -/

/-- `least_non_null_value` (`main`, lines 184-191): `std::max_element` under
a comparator that ranks the null key lowest and inverts the integer order —
over a map with unique keys this selects exactly the minimum non-null key.
`.value()` is undefined when no real key exists; the model returns 0 in that
(unreachable) case. -/
def leastNonNull (enc : List (Option Int × List Bool)) : Int :=
  match enc.filterMap Prod.fst with
  | [] => 0
  | x :: xs => xs.foldl min x

/-- `greatest_non_null_value` (`main`, lines 192-199): the maximum non-null
key, by the symmetric comparator. -/
def greatestNonNull (enc : List (Option Int × List Bool)) : Int :=
  match enc.filterMap Prod.fst with
  | [] => 0
  | x :: xs => xs.foldl max x

/-- The dense table (`main`, lines 202-209):
`std::vector<std::vector<bool>> encoding_table(greatest - least)` — the size
is `greatest − least`, with slot `i` holding the codeword of symbol
`least + i` when that symbol is coded (`encoding.contains(i+least)`), else
the escape codeword (`encoding[std::nullopt]`, which reads an empty codeword
if no escape entry exists). -/
def encoding_table (enc : List (Option Int × List Bool)) :
    List (List Bool) :=
  (List.range (greatestNonNull enc - leastNonNull enc).toNat).map
    (fun i =>
      if (enc.lookup (some (leastNonNull enc + i))).isSome then
        (enc.lookup (some (leastNonNull enc + i))).getD []
      else (enc.lookup none).getD [])

/-- C4 is refuted by the code: the dense array holds `greatest − least`
slots, not `greatest − least + 1`, so the greatest coded symbol has no slot.
On the table {−1 ↦ 00, 1 ↦ 01, escape ↦ 1} the bounds are −1 and 1, the
array is [00, 1] (slot 0 = codeword of −1, slot 1 = escape fill for the
uncoded 0) of length 2, and index (1 − (−1)) = 2 — required by the claim for
the in-range symbol 1 — is out of bounds. -/
theorem claim4_counterexample :
    leastNonNull [(some (-1), [false, false]), (some 1, [false, true]),
      (none, [true])] = -1 ∧
    greatestNonNull [(some (-1), [false, false]), (some 1, [false, true]),
      (none, [true])] = 1 ∧
    encoding_table [(some (-1), [false, false]), (some 1, [false, true]),
      (none, [true])] = [[false, false], [true]] ∧
    ¬((((1 : Int)) - leastNonNull [(some (-1), [false, false]),
      (some 1, [false, true]), (none, [true])]).toNat <
      (encoding_table [(some (-1), [false, false]), (some 1, [false, true]),
        (none, [true])]).length) :=
  ⟨by decide, by decide, by decide, by decide⟩

end MEH

/-! ### `huffman_code.cc`: serial and parallel encoders -/

namespace HC

/-- `encoding.at(v)`; in `main` every encoded value is a histogram key, so
the lookup always succeeds and the model's `[]` default is never taken
under the key-membership hypothesis of `claim2`. -/
def lookupD (tbl : List (Int × List Bool)) (v : Int) : List Bool :=
  (tbl.lookup v).getD []

/-- Stage 4 (serial): append each value's codeword bits in order
(`encoded.insert(encoded.end(), encoding.at(v).begin(), ...)`; the buffer
stores one bit per byte). -/
def serialEncode (tbl : List (Int × List Bool)) (values : List Int) :
    List Bool :=
  values.foldl (fun acc v => acc ++ lookupD tbl v) []

/-- `largest_encoding`: maximum codeword size over the code table. -/
def largestEncoding (tbl : List (Int × List Bool)) : Nat :=
  tbl.foldl (fun m p => max m p.2.length) 0

/-- Phase 1: the exclusive prefix scan
(`offsets[i] = acc; acc += encoding.at(values[i]).size()`), returning the
offset array and the final total `acc`.  The OpenMP scan computes these
same values chunk-by-chunk with a carried accumulator. -/
def offsetsAcc (tbl : List (Int × List Bool)) (values : List Int) :
    List Nat × Nat :=
  values.foldl
    (fun st v => (st.1 ++ [st.2], st.2 + (lookupD tbl v).length)) ([], 0)

/-- The inner loop of phase 2: write the codeword bits at consecutive
buffer positions from `pos` (`par_encoded[j + offsets[i]] = encoded[j]`). -/
def writeBits : List Bool → Nat → List Bool → List Bool
  | buf, _, [] => buf
  | buf, pos, c :: cs => writeBits (buf.set pos c) (pos + 1) cs

/-- Phase 2: scatter every value's codeword at its offset. The concurrent
OpenMP loop writes pairwise disjoint index ranges, so its buffer contents
equal this deterministic left-to-right scatter. -/
def scatter (tbl : List (Int × List Bool)) (buf : List Bool)
    (pairs : List (Int × Nat)) : List Bool :=
  pairs.foldl (fun b p => writeBits b p.2 (lookupD tbl p.1)) buf

/-- The parallel encoder (alternative stage 4): preallocate
`values.size() * largest_encoding` zeroed cells, scatter, then truncate to
the accumulated total (`par_encoded.resize(acc)`). -/
def parEncode (tbl : List (Int × List Bool)) (values : List Int) :
    List Bool :=
  (scatter tbl
    (List.replicate (values.length * largestEncoding tbl) false)
    (values.zip (offsetsAcc tbl values).1)).take (offsetsAcc tbl values).2

/-- Total codeword length of a value list. -/
def sumLens (tbl : List (Int × List Bool)) (values : List Int) : Nat :=
  (values.map (fun v => (lookupD tbl v).length)).sum

/-- The exclusive-scan offset list starting from `o`. -/
def offsList (tbl : List (Int × List Bool)) : List Int → Nat → List Nat
  | [], _ => []
  | v :: vs, o => o :: offsList tbl vs (o + (lookupD tbl v).length)

theorem serialEncode_go (tbl : List (Int × List Bool)) :
    ∀ (values : List Int) (acc : List Bool),
    values.foldl (fun a v => a ++ lookupD tbl v) acc =
      acc ++ (values.map (lookupD tbl)).flatten := by
  intro values
  induction values with
  | nil => intro acc; simp
  | cons v vs ih =>
      intro acc
      simp only [List.foldl_cons, List.map_cons, List.flatten_cons, ih,
        List.append_assoc]

theorem serialEncode_eq (tbl : List (Int × List Bool)) (values : List Int) :
    serialEncode tbl values = (values.map (lookupD tbl)).flatten := by
  rw [serialEncode, serialEncode_go]
  rfl

theorem offsetsAcc_go (tbl : List (Int × List Bool)) :
    ∀ (values : List Int) (offs0 : List Nat) (acc0 : Nat),
    values.foldl
      (fun st v => (st.1 ++ [st.2], st.2 + (lookupD tbl v).length))
      (offs0, acc0) =
    (offs0 ++ offsList tbl values acc0, acc0 + sumLens tbl values) := by
  intro values
  induction values with
  | nil => intro offs0 acc0; simp [offsList, sumLens]
  | cons v vs ih =>
      intro offs0 acc0
      simp only [List.foldl_cons, ih, offsList, sumLens, List.map_cons,
        List.sum_cons, List.append_assoc, List.singleton_append]
      rw [Nat.add_assoc]

theorem offsetsAcc_eq (tbl : List (Int × List Bool)) (values : List Int) :
    offsetsAcc tbl values =
      (offsList tbl values 0, sumLens tbl values) := by
  rw [offsetsAcc, offsetsAcc_go]
  simp

theorem set_append_len (X : List Bool) (z c : Bool) (Z : List Bool) :
    (X ++ z :: Z).set X.length c = X ++ c :: Z := by
  induction X with
  | nil => rfl
  | cons x xs ih => simp [List.set, ih]

/-- In-bounds scatter of one codeword is a splice. -/
theorem writeBits_append :
    ∀ (code X Z : List Bool), code.length ≤ Z.length →
    writeBits (X ++ Z) X.length code = X ++ code ++ Z.drop code.length := by
  intro code
  induction code with
  | nil =>
      intro X Z _
      simp [writeBits]
  | cons c cs ih =>
      intro X Z hlen
      cases Z with
      | nil => simp at hlen
      | cons z Z' =>
          rw [writeBits, set_append_len]
          have heq : X.length + 1 = (X ++ [c]).length := by simp
          have hsplit : X ++ c :: Z' = (X ++ [c]) ++ Z' := by simp
          rw [hsplit, heq, ih (X ++ [c]) Z' (by simpa using hlen)]
          simp

theorem scatter_spec (tbl : List (Int × List Bool)) :
    ∀ (values : List Int) (X Z : List Bool),
    sumLens tbl values ≤ Z.length →
    scatter tbl (X ++ Z) (values.zip (offsList tbl values X.length)) =
      X ++ (values.map (lookupD tbl)).flatten ++
        Z.drop (sumLens tbl values) := by
  intro values
  induction values with
  | nil =>
      intro X Z _
      simp [scatter, offsList, sumLens]
  | cons v vs ih =>
      intro X Z hZ
      have hsum : sumLens tbl (v :: vs) =
          (lookupD tbl v).length + sumLens tbl vs := by
        simp [sumLens]
      rw [offsList]
      simp only [List.zip_cons_cons, scatter, List.foldl_cons]
      rw [show (List.foldl (fun b p => writeBits b p.2 (lookupD tbl p.1))
        (writeBits (X ++ Z) X.length (lookupD tbl v))
        (vs.zip (offsList tbl vs (X.length + (lookupD tbl v).length)))) =
        scatter tbl (writeBits (X ++ Z) X.length (lookupD tbl v))
          (vs.zip (offsList tbl vs (X.length + (lookupD tbl v).length)))
        from rfl]
      rw [writeBits_append (lookupD tbl v) X Z (by omega)]
      have hX' : X.length + (lookupD tbl v).length =
          (X ++ lookupD tbl v).length := by simp
      rw [List.append_assoc, ← List.append_assoc X (lookupD tbl v), hX']
      rw [ih (X ++ lookupD tbl v) (Z.drop (lookupD tbl v).length)
        (by simp; omega)]
      rw [List.drop_drop]
      simp only [List.map_cons, List.flatten_cons, hsum, List.append_assoc]

theorem mem_of_lookup_eq_some {tbl : List (Int × List Bool)} {v : Int}
    {c : List Bool} (h : tbl.lookup v = some c) : (v, c) ∈ tbl := by
  induction tbl with
  | nil => simp [List.lookup] at h
  | cons p t ih =>
      obtain ⟨a, b⟩ := p
      simp only [List.lookup] at h
      cases hva : (v == a) with
      | true =>
          rw [hva] at h
          have hv : v = a := by simpa using hva
          have hc : b = c := by simpa using h
          rw [hv, ← hc]
          exact List.mem_cons_self _ _
      | false =>
          rw [hva] at h
          exact List.mem_cons_of_mem _ (ih h)

theorem foldl_max_le_init (tbl : List (Int × List Bool)) :
    ∀ m : Nat, m ≤ tbl.foldl (fun m p => max m p.2.length) m := by
  induction tbl with
  | nil => intro m; simp
  | cons q t ih =>
      intro m
      simp only [List.foldl_cons]
      exact le_trans (Nat.le_max_left m q.2.length) (ih _)

theorem mem_le_foldl_max (tbl : List (Int × List Bool)) :
    ∀ (m : Nat) (p : Int × List Bool), p ∈ tbl →
    p.2.length ≤ tbl.foldl (fun m q => max m q.2.length) m := by
  induction tbl with
  | nil => intro m p hp; simp at hp
  | cons q t ih =>
      intro m p hp
      simp only [List.foldl_cons]
      rcases List.mem_cons.mp hp with hpq | hpt
      · subst hpq
        exact le_trans (Nat.le_max_right m p.2.length) (foldl_max_le_init t _)
      · exact ih _ p hpt

theorem lookupD_length_le (tbl : List (Int × List Bool)) (v : Int) :
    (lookupD tbl v).length ≤ largestEncoding tbl := by
  rw [lookupD, largestEncoding]
  cases hl : tbl.lookup v with
  | none => simp
  | some c =>
      simp only [Option.getD_some]
      exact mem_le_foldl_max tbl 0 (v, c) (mem_of_lookup_eq_some hl)

theorem sumLens_le (tbl : List (Int × List Bool)) (values : List Int) :
    sumLens tbl values ≤ values.length * largestEncoding tbl := by
  induction values with
  | nil => simp [sumLens]
  | cons v vs ih =>
      have h1 : sumLens tbl (v :: vs) =
          (lookupD tbl v).length + sumLens tbl vs := by simp [sumLens]
      have h2 := lookupD_length_le tbl v
      rw [h1, List.length_cons, Nat.succ_mul]
      omega

theorem length_flatten_map (tbl : List (Int × List Bool))
    (values : List Int) :
    ((values.map (lookupD tbl)).flatten).length = sumLens tbl values := by
  rw [List.length_flatten, sumLens, List.map_map]
  rfl

/-- C2: the serial encoder and the parallel (exclusive-prefix-sum +
scatter) encoder produce bit-for-bit identical bitstreams, for every code
table and every sequence whose values the table covers — including the
empty and singleton sequences.  After the parallel encode, the preallocated
buffer truncated to the accumulated total equals the serial output. -/
theorem claim2_serial_eq_parallel (tbl : List (Int × List Bool))
    (values : List Int) (hmem : ∀ v ∈ values, (tbl.lookup v).isSome) :
    parEncode tbl values = serialEncode tbl values := by
  have hfit : sumLens tbl values ≤
      (List.replicate (values.length * largestEncoding tbl) false).length := by
    rw [List.length_replicate]
    exact sumLens_le tbl values
  have hsc := scatter_spec tbl values []
    (List.replicate (values.length * largestEncoding tbl) false) hfit
  rw [List.nil_append] at hsc
  simp only [List.length_nil] at hsc
  rw [parEncode, offsetsAcc_eq]
  rw [hsc, serialEncode_eq]
  rw [List.nil_append, List.take_append_of_le_length
    (by rw [length_flatten_map]),
    List.take_of_length_le (by rw [length_flatten_map])]

/-- Witness for C2 on a 3-symbol table and a sequence of length 4 (the
general theorem also covers lengths 0 and 1). -/
theorem claim2_witness :
    (∀ v ∈ ([0, 2, 1, 0] : List Int),
      (([((0 : Int)), (1 : Int), (2 : Int)].zip
        [[false], [true, false], [true, true]] :
        List (Int × List Bool)).lookup v).isSome) ∧
    parEncode ([((0 : Int)), (1 : Int), (2 : Int)].zip
        [[false], [true, false], [true, true]]) [0, 2, 1, 0] =
      serialEncode ([((0 : Int)), (1 : Int), (2 : Int)].zip
        [[false], [true, false], [true, true]]) [0, 2, 1, 0] :=
  ⟨by decide,
    claim2_serial_eq_parallel
      ([((0 : Int)), (1 : Int), (2 : Int)].zip
        [[false], [true, false], [true, true]]) [0, 2, 1, 0] (by decide)⟩

end HC

end Huffman
